import Mathlib

/-!
Verification of the `fswhy` terminal filesystem explorer.

This development shallowly embeds the two core components of the program:

* `src/model.rs` — the recursive scanner `Node::scan_with_progress`, which
  turns a filesystem subtree into a size-annotated `Node` tree with a
  canonical child ordering (directories first, then by path); and
* `src/ui_state.rs` — the session state `UiState` with its projection
  `flatten_view` and the action handler `update`.

Filesystem paths are modelled as lists of components (`FsPath`), matching
Rust's component-wise `PathBuf` ordering; machine integers (`u64` sizes,
`usize` indices) are modelled as `Nat`, which is faithful because the code
performs no wrapping arithmetic on them (the only overflow-sensitive spot,
`str::parse::<usize>`, is modelled explicitly with the 64-bit bound).
I/O side effects of the scanner (progress printing to stderr, the global
atomic progress counter) do not influence the returned tree and are omitted.
-/

/-! ## Path comparison

Rust compares `PathBuf`s component-wise, each component by its byte
sequence.  We model a path as a `List String` of components and compare
lexicographically, with components compared by their character sequences.
-/

/-- Comparison of characters by code point, mirroring byte comparison of
path components in Rust. -/
def charCmp (a b : Char) : Ordering :=
  if a.toNat < b.toNat then .lt else if a.toNat = b.toNat then .eq else .gt

/-- Lexicographic list comparison, mirroring `Ord` for Rust slices:
shorter prefixes sort first, otherwise the first differing element decides. -/
def listCmp (cmp : α → α → Ordering) : List α → List α → Ordering
  | [], [] => .eq
  | [], _ :: _ => .lt
  | _ :: _, [] => .gt
  | a :: as, b :: bs =>
    match cmp a b with
    | .eq => listCmp cmp as bs
    | o => o

/-- Comparison of path components (strings) by character sequence. -/
def strCmp (a b : String) : Ordering := listCmp charCmp a.data b.data

/-- A filesystem path, as its list of components. -/
abbrev FsPath := List String

/-- Comparison of paths, mirroring `PathBuf::cmp` (component-wise). -/
def pathCmp (a b : FsPath) : Ordering := listCmp strCmp a b

theorem charCmp_eq_iff (a b : Char) : charCmp a b = .eq ↔ a = b := by
  unfold charCmp
  split
  · constructor
    · intro h; exact absurd h (by simp)
    · intro h; subst h; omega
  · split
    · rename_i h1 h2
      simp only [true_iff]
      exact Char.ext (UInt32.ext h2)
    · constructor
      · intro h; exact absurd h (by simp)
      · intro h; subst h; omega

theorem charCmp_swap (a b : Char) : charCmp b a = (charCmp a b).swap := by
  unfold charCmp
  rcases Nat.lt_trichotomy a.toNat b.toNat with h | h | h
  · rw [if_neg (by omega), if_neg (by omega), if_pos h]
    rfl
  · rw [if_neg (by omega), if_pos h.symm, if_neg (by omega), if_pos h]
    rfl
  · rw [if_pos h, if_neg (by omega), if_neg (by omega)]
    rfl

theorem charCmp_lt_trans {a b c : Char} (h1 : charCmp a b = .lt)
    (h2 : charCmp b c = .lt) : charCmp a c = .lt := by
  unfold charCmp at h1 h2 ⊢
  split at h1
  · split at h2
    · rename_i ha hb
      rw [if_pos (by omega)]
    · split at h2
      · exact absurd h2 (by simp)
      · exact absurd h2 (by simp)
  · split at h1
    · exact absurd h1 (by simp)
    · exact absurd h1 (by simp)

theorem listCmp_eq_iff (cmp : α → α → Ordering)
    (hcmp : ∀ a b, cmp a b = .eq ↔ a = b) :
    ∀ l m, listCmp cmp l m = .eq ↔ l = m := by
  intro l
  induction l with
  | nil => intro m; cases m <;> simp [listCmp]
  | cons a as ih =>
    intro m
    cases m with
    | nil => simp [listCmp]
    | cons b bs =>
      simp only [listCmp]
      rcases ho : cmp a b with h | h | h
      · simp only [List.cons.injEq]
        constructor
        · intro h'; exact absurd h' (by simp)
        · rintro ⟨rfl, rfl⟩
          rw [(hcmp a a).mpr rfl] at ho; cases ho
      · have hab : a = b := (hcmp a b).mp ho
        subst hab
        simp [ih bs]
      · simp only [List.cons.injEq]
        constructor
        · intro h'; exact absurd h' (by simp)
        · rintro ⟨rfl, rfl⟩
          rw [(hcmp a a).mpr rfl] at ho; cases ho

theorem listCmp_swap (cmp : α → α → Ordering)
    (hcmp : ∀ a b, cmp b a = (cmp a b).swap) :
    ∀ l m, listCmp cmp m l = (listCmp cmp l m).swap := by
  intro l
  induction l with
  | nil => intro m; cases m <;> simp [listCmp, Ordering.swap]
  | cons a as ih =>
    intro m
    cases m with
    | nil => simp [listCmp, Ordering.swap]
    | cons b bs =>
      simp only [listCmp]
      rw [hcmp b a]
      cases ho : cmp b a with
      | lt => rfl
      | eq => exact ih bs
      | gt => rfl

theorem listCmp_lt_trans (cmp : α → α → Ordering)
    (hcmpeq : ∀ a b, cmp a b = .eq ↔ a = b)
    (hcmptr : ∀ a b c, cmp a b = .lt → cmp b c = .lt → cmp a c = .lt) :
    ∀ l m k, listCmp cmp l m = .lt → listCmp cmp m k = .lt →
      listCmp cmp l k = .lt := by
  intro l
  induction l with
  | nil =>
    intro m k h1 h2
    cases m with
    | nil => exact h2
    | cons b bs =>
      cases k with
      | nil => simp [listCmp] at h2
      | cons c cs => simp [listCmp]
  | cons a as ih =>
    intro m k h1 h2
    cases m with
    | nil => simp [listCmp] at h1
    | cons b bs =>
      cases k with
      | nil => simp [listCmp] at h2
      | cons c cs =>
        simp only [listCmp] at h1 h2 ⊢
        cases hab : cmp a b with
        | lt =>
          cases hbc : cmp b c with
          | lt => rw [hcmptr a b c hab hbc]
          | eq =>
            have hb : b = c := (hcmpeq b c).mp hbc
            subst hb
            rw [hab]
          | gt => rw [hbc] at h2; exact Ordering.noConfusion h2
        | eq =>
          have hb : a = b := (hcmpeq a b).mp hab
          subst hb
          rw [hab] at h1
          cases hbc : cmp a c with
          | lt => rfl
          | eq =>
            rw [hbc] at h2
            exact ih bs cs h1 h2
          | gt => rw [hbc] at h2; exact Ordering.noConfusion h2
        | gt => rw [hab] at h1; exact Ordering.noConfusion h1

theorem strCmp_eq_iff (a b : String) : strCmp a b = .eq ↔ a = b := by
  unfold strCmp
  rw [listCmp_eq_iff charCmp charCmp_eq_iff]
  constructor
  · intro h
    cases a; cases b
    exact congrArg String.mk h
  · intro h; rw [h]

theorem strCmp_swap (a b : String) : strCmp b a = (strCmp a b).swap :=
  listCmp_swap charCmp charCmp_swap a.data b.data

theorem strCmp_lt_trans {a b c : String} (h1 : strCmp a b = .lt)
    (h2 : strCmp b c = .lt) : strCmp a c = .lt :=
  listCmp_lt_trans charCmp charCmp_eq_iff (fun _ _ _ => charCmp_lt_trans)
    a.data b.data c.data h1 h2

theorem pathCmp_eq_iff (a b : FsPath) : pathCmp a b = .eq ↔ a = b :=
  listCmp_eq_iff strCmp strCmp_eq_iff a b

theorem pathCmp_swap (a b : FsPath) : pathCmp b a = (pathCmp a b).swap :=
  listCmp_swap strCmp strCmp_swap a b

theorem pathCmp_lt_trans {a b c : FsPath} (h1 : pathCmp a b = .lt)
    (h2 : pathCmp b c = .lt) : pathCmp a c = .lt :=
  listCmp_lt_trans strCmp strCmp_eq_iff
    (fun _ _ _ => strCmp_lt_trans) a b c h1 h2

theorem pathCmp_refl (a : FsPath) : pathCmp a a = .eq := (pathCmp_eq_iff a a).mpr rfl

/-! ## The node tree (`src/model.rs`)

```rust
pub struct Node { path: PathBuf, size: u64, kind: NodeKind }
pub enum NodeKind { File, Directory(DirProperty) }
pub struct DirProperty { children: Vec<Node> }
```

We flatten the `kind` tag into two constructors; `Node.file p s` stands for
`Node { path: p, size: s, kind: File }` and `Node.dir p s cs` for
`Node { path: p, size: s, kind: Directory(DirProperty { children: cs }) }`.
-/

inductive Node where
  | file (path : FsPath) (size : Nat)
  | dir (path : FsPath) (size : Nat) (children : List Node)

/-- `Node::path`. -/
def Node.path : Node → FsPath
  | .file p _ => p
  | .dir p _ _ => p

/-- `Node::size`. -/
def Node.size : Node → Nat
  | .file _ s => s
  | .dir _ s _ => s

/-- `NodeKind::is_dir` of the node's kind. -/
def Node.isDir : Node → Bool
  | .file _ _ => false
  | .dir _ _ _ => true

mutual
/-- Structural (value) equality of nodes, mirroring the derived `PartialEq`
on `Node` (which compares `path`, `size` and `kind` with its children,
recursively).  This is the equality used by `Vec::contains` and
`Iterator::position` on `Vec<&Node>` in `ui_state.rs`. -/
def Node.beq : Node → Node → Bool
  | .file p s, .file q t => p == q && s == t
  | .dir p s cs, .dir q t ds => p == q && s == t && Node.beqList cs ds
  | _, _ => false

/-- Value equality of child lists (the derived `PartialEq` on `Vec<Node>`). -/
def Node.beqList : List Node → List Node → Bool
  | [], [] => true
  | a :: as, b :: bs => Node.beq a b && Node.beqList as bs
  | _, _ => false
end

instance : BEq Node := ⟨Node.beq⟩

/-- The induction principle for the nested inductive `Node`. -/
theorem nodeInduction (P : Node → Prop)
    (hfile : ∀ p s, P (.file p s))
    (hdir : ∀ p s cs, (∀ c ∈ cs, P c) → P (.dir p s cs)) :
    ∀ n, P n := fun n =>
  match n with
  | .file p s => hfile p s
  | .dir p s cs => hdir p s cs (fun c hc =>
      have : sizeOf c < sizeOf (Node.dir p s cs) := by
        have h1 := List.sizeOf_lt_of_mem hc
        simp only [Node.dir.sizeOf_spec]
        omega
      nodeInduction P hfile hdir c)
termination_by n => sizeOf n

theorem Node.beqList_iff : ∀ cs ds : List Node,
    (∀ c ∈ cs, ∀ b, Node.beq c b = true ↔ c = b) →
    (Node.beqList cs ds = true ↔ cs = ds) := by
  intro cs
  induction cs with
  | nil => intro ds _; cases ds <;> simp [Node.beqList]
  | cons c cs' ihc =>
    intro ds ih
    cases ds with
    | nil => simp [Node.beqList]
    | cons d ds' =>
      simp only [Node.beqList, Bool.and_eq_true]
      rw [ih c (by simp) d, ihc ds' (fun c' hc' b => ih c' (by simp [hc']) b)]
      simp

theorem Node.beq_iff : ∀ a b : Node, Node.beq a b = true ↔ a = b := by
  intro a
  induction a using nodeInduction with
  | hfile p s =>
    intro b
    cases b <;> simp [Node.beq]
  | hdir p s cs ih =>
    intro b
    cases b with
    | file q t => simp [Node.beq]
    | dir q t ds =>
      simp only [Node.beq, Bool.and_eq_true, beq_iff_eq, Node.dir.injEq]
      rw [Node.beqList_iff cs ds ih]
      constructor
      · rintro ⟨⟨rfl, rfl⟩, rfl⟩; exact ⟨rfl, rfl, rfl⟩
      · rintro ⟨rfl, rfl, rfl⟩; exact ⟨⟨rfl, rfl⟩, rfl⟩

instance : LawfulBEq Node where
  eq_of_beq h := (Node.beq_iff _ _).mp h
  rfl := (Node.beq_iff _ _).mpr rfl

instance : DecidableEq Node := fun a b =>
  decidable_of_iff (Node.beq a b = true) (Node.beq_iff a b)

/-! ## The scanner (`Node::scan_with_progress`, `src/model.rs` lines 91-161)

The filesystem visible to one `scan` call is modelled by `FS`:

* `FS.file sz` — `fs::metadata` succeeds, `!meta.is_dir()`, `meta.len() = sz`;
* `FS.dir entries` — `fs::metadata` and `read_dir` succeed; `entries` is the
  iterator produced by `read_dir`, in iteration order.  Each element is an
  `entry_result : io::Result<DirEntry>`: `none` models an errored entry
  (skipped by the `filter_map(.. .ok())`), `some (name, fs)` a successful
  entry whose path is the parent path extended by `name` and whose own
  filesystem content is `fs`;
* `FS.metaErr` — `fs::metadata(&path)` fails (missing entry, permission
  error, broken symlink target);
* `FS.dirErr` — `fs::metadata` reports a directory but `read_dir(&path)`
  fails.

The progress counter and all `eprint` calls affect only stderr, never the
returned tree, and are omitted.
-/

inductive FS where
  | file (size : Nat)
  | dir (entries : List (Option (String × FS)))
  | metaErr
  | dirErr

/-- The error a failed scan propagates (the `?` operators on
`fs::metadata(&path)?` and `std::fs::read_dir(&path)?`), remembering which
path failed and how. -/
inductive ScanError where
  | ioMeta (path : FsPath)
  | ioList (path : FsPath)
deriving DecidableEq

/-- The comparator passed to `children.sort_by` in `scan_with_progress`:

```rust
children.sort_by(|a, b| match (&a.kind, &b.kind) {
    (Directory(_), File) => std::cmp::Ordering::Less,
    (File, Directory(_)) => std::cmp::Ordering::Greater,
    _ => a.path.cmp(&b.path),
});
```
-/
def nodeCmp (a b : Node) : Ordering :=
  match a, b with
  | .dir _ _ _, .file _ _ => .lt
  | .file _ _, .dir _ _ _ => .gt
  | _, _ => pathCmp a.path b.path

/-- The non-strict order induced by `nodeCmp` (`cmp(a, b) != Greater`),
which is what a comparison-sort establishes pairwise. -/
def node_le (a b : Node) : Bool :=
  match nodeCmp a b with
  | .gt => false
  | _ => true

/-- `children.sort_by(..)` — a stable comparison sort of the child list. -/
def sort_children (cs : List Node) : List Node := cs.mergeSort node_le

/-- Sum of the children's sizes:
`children.iter().map(|c| c.size).sum()`. -/
def sizeSum (cs : List Node) : Nat := (cs.map Node.size).sum

mutual
/-- `Node::scan_with_progress` (the `depth` and `total_count` arguments only
drive progress printing and are omitted).  For a directory the child nodes
are built in iteration order — an error building any child propagates
through the `collect::<anyhow::Result<Vec<Node>>>()?` — then sorted, and the
directory's size is the sum of the children's sizes. -/
def scan_with_progress (path : FsPath) : FS → Except ScanError Node
  | .metaErr => .error (.ioMeta path)
  | .dirErr => .error (.ioList path)
  | .file sz => .ok (.file path sz)
  | .dir entries =>
    match scan_entries path entries with
    | .error e => .error e
    | .ok children =>
      let sorted := sort_children children
      .ok (.dir path (sizeSum sorted) sorted)

/-- The iterator chain over `read_dir` results: errored `DirEntry` results
are dropped by `filter_map`, successful ones are scanned recursively with
`?`, and `collect::<anyhow::Result<Vec<Node>>>()?` stops at the first child
whose scan fails. -/
def scan_entries (path : FsPath) :
    List (Option (String × FS)) → Except ScanError (List Node)
  | [] => .ok []
  | none :: rest => scan_entries path rest
  | some (name, fs) :: rest =>
    match scan_with_progress (path ++ [name]) fs with
    | .error e => .error e
    | .ok child =>
      match scan_entries path rest with
      | .error e => .error e
      | .ok rest' => .ok (child :: rest')
end

/-- `Node::scan` — resets the progress counter, prints, and delegates to
`scan_with_progress` at depth 0. -/
def Node.scan (path : FsPath) (fs : FS) : Except ScanError Node :=
  scan_with_progress path fs

/-- Induction principle for the nested inductive `FS`. -/
theorem fsInduction (P : FS → Prop)
    (hfile : ∀ sz, P (.file sz))
    (hmeta : P .metaErr)
    (hlist : P .dirErr)
    (hdir : ∀ entries,
      (∀ e ∈ entries, ∀ name fs, e = some (name, fs) → P fs) →
      P (.dir entries)) :
    ∀ f, P f := fun f =>
  match f with
  | .file sz => hfile sz
  | .metaErr => hmeta
  | .dirErr => hlist
  | .dir entries => hdir entries (fun e he name fs hef =>
      have : sizeOf fs < 1 + sizeOf entries := by
        have h1 := List.sizeOf_lt_of_mem he
        subst hef
        simp only [Option.some.sizeOf_spec, Prod.mk.sizeOf_spec] at h1
        omega
      fsInduction P hfile hmeta hlist hdir fs)
termination_by f => sizeOf f

/-! ## Size aggregation (claim C3) -/

mutual
/-- The size invariant of a built tree: every directory's `size` is the sum
of its direct children's sizes, recursively (files are unconstrained — their
size is whatever the filesystem reported). -/
def sizeOkB : Node → Bool
  | .file _ _ => true
  | .dir _ sz cs => (sz == sizeSum cs) && sizeOkList cs

/-- `sizeOkB` holds of every node in the list. -/
def sizeOkList : List Node → Bool
  | [] => true
  | c :: cs => sizeOkB c && sizeOkList cs
end

theorem sizeOkList_eq_all (cs : List Node) : sizeOkList cs = cs.all sizeOkB := by
  induction cs with
  | nil => rfl
  | cons c cs' ih => simp [sizeOkList, ih]

theorem scan_entries_sizeOk (path : FsPath) :
    ∀ entries cs,
      (∀ e ∈ entries, ∀ name fs, e = some (name, fs) →
        ∀ q m, scan_with_progress q fs = .ok m → sizeOkB m = true) →
      scan_entries path entries = .ok cs → sizeOkList cs = true := by
  intro entries
  induction entries with
  | nil =>
    intro cs _ h
    simp only [scan_entries] at h
    cases h
    rfl
  | cons e rest ihr =>
    intro cs ih h
    cases e with
    | none =>
      simp only [scan_entries] at h
      exact ihr cs (fun e' he' => ih e' (by simp [he'])) h
    | some nf =>
      obtain ⟨name, fs⟩ := nf
      simp only [scan_entries] at h
      cases hc : scan_with_progress (path ++ [name]) fs with
      | error e' => rw [hc] at h; cases h
      | ok child =>
        rw [hc] at h
        cases hr : scan_entries path rest with
        | error e' => rw [hr] at h; cases h
        | ok rest' =>
          rw [hr] at h
          cases h
          have h1 : sizeOkB child = true :=
            ih _ (by simp) name fs rfl _ child hc
          have h2 : sizeOkList rest' = true :=
            ihr rest' (fun e' he' => ih e' (by simp [he'])) hr
          simp [sizeOkList, h1, h2]

/-- Claim C3, main direction: every node of a tree returned by
`scan_with_progress` satisfies the recursive size invariant. -/
theorem scan_sizeOk :
    ∀ fs path n, scan_with_progress path fs = .ok n → sizeOkB n = true := by
  intro fs
  induction fs using fsInduction with
  | hfile sz =>
    intro path n h
    simp only [scan_with_progress] at h
    cases h
    rfl
  | hmeta => intro path n h; simp only [scan_with_progress] at h; cases h
  | hlist => intro path n h; simp only [scan_with_progress] at h; cases h
  | hdir entries ih =>
    intro path n h
    simp only [scan_with_progress] at h
    cases he : scan_entries path entries with
    | error e' => rw [he] at h; cases h
    | ok children =>
      rw [he] at h
      cases h
      have hall : sizeOkList children = true :=
        scan_entries_sizeOk path entries children
          (fun e he' name fs hef q m => ih e he' name fs hef q m) he
      have hperm : (sort_children children).Perm children :=
        List.mergeSort_perm children node_le
      simp only [sizeOkB, Bool.and_eq_true, beq_iff_eq]
      constructor
      · trivial
      · rw [sizeOkList_eq_all] at hall ⊢
        rw [List.all_eq_true] at hall ⊢
        intro x hx
        exact hall x (hperm.mem_iff.mp hx)

/-! ## Canonical child ordering (claim C5) -/

theorem node_le_iff (a b : Node) : node_le a b = true ↔ nodeCmp a b ≠ .gt := by
  unfold node_le
  cases nodeCmp a b <;> simp

theorem nodeCmp_swap (a b : Node) : nodeCmp b a = (nodeCmp a b).swap := by
  cases a <;> cases b <;>
    simp only [nodeCmp, Node.path] <;>
    first
    | rfl
    | apply pathCmp_swap

theorem pathCmp_ne_gt_trans {a b c : FsPath} (h1 : pathCmp a b ≠ .gt)
    (h2 : pathCmp b c ≠ .gt) : pathCmp a c ≠ .gt := by
  cases hab : pathCmp a b with
  | gt => exact absurd hab h1
  | lt =>
    cases hbc : pathCmp b c with
    | gt => exact absurd hbc h2
    | lt => rw [pathCmp_lt_trans hab hbc]; simp
    | eq =>
      have hb := (pathCmp_eq_iff b c).mp hbc
      subst hb
      rw [hab]
      simp
  | eq =>
    have hb := (pathCmp_eq_iff a b).mp hab
    subst hb
    exact h2

theorem node_le_trans (a b c : Node) (h1 : node_le a b = true)
    (h2 : node_le b c = true) : node_le a c = true := by
  rw [node_le_iff] at h1 h2 ⊢
  cases a <;> cases b <;> cases c <;>
    simp only [nodeCmp, Node.path] at h1 h2 ⊢ <;>
    first
    | (exact absurd rfl h1)
    | (exact absurd rfl h2)
    | (exact pathCmp_ne_gt_trans h1 h2)
    | decide

theorem node_le_total (a b : Node) : (node_le a b || node_le b a) = true := by
  rw [Bool.or_eq_true, node_le_iff, node_le_iff]
  cases h : nodeCmp a b with
  | lt => left; decide
  | eq => left; decide
  | gt =>
    right
    rw [nodeCmp_swap a b, h]
    decide

/-- The strict sibling order the claim asserts: a directory precedes any
file, and same-kind siblings are strictly path-ascending. -/
def childLt (a b : Node) : Bool :=
  (a.isDir && !b.isDir) ||
    ((a.isDir == b.isDir) && (pathCmp a.path b.path == Ordering.lt))

/-- Boolean pairwise check of a relation over a list. -/
def pairwiseB (r : Node → Node → Bool) : List Node → Bool
  | [] => true
  | x :: xs => xs.all (r x) && pairwiseB r xs

theorem pairwiseB_iff (r : Node → Node → Bool) :
    ∀ l, pairwiseB r l = true ↔ List.Pairwise (fun a b => r a b = true) l := by
  intro l
  induction l with
  | nil => simp [pairwiseB]
  | cons x xs ih =>
    simp [pairwiseB, ih, List.all_eq_true]

mutual
/-- The recursive ordering invariant of a built tree: at every directory,
the children are pairwise in the strict canonical order (directories before
files, same kinds strictly path-ascending). -/
def orderedOkB : Node → Bool
  | .file _ _ => true
  | .dir _ _ cs => pairwiseB childLt cs && orderedOkList cs

/-- `orderedOkB` holds of every node in the list. -/
def orderedOkList : List Node → Bool
  | [] => true
  | c :: cs => orderedOkB c && orderedOkList cs
end

theorem orderedOkList_eq_all (cs : List Node) :
    orderedOkList cs = cs.all orderedOkB := by
  induction cs with
  | nil => rfl
  | cons c cs' ih => simp [orderedOkList, ih]

/-- Boolean nodup check over strings (`Vec`-style, first occurrence wins). -/
def nodupB : List String → Bool
  | [] => true
  | x :: xs => !(xs.contains x) && nodupB xs

theorem nodupB_iff : ∀ l : List String, nodupB l = true ↔ l.Nodup := by
  intro l
  induction l with
  | nil => simp [nodupB]
  | cons x xs ih => simp [nodupB, ih]

/-- The names of the entries of a directory listing that are themselves
readable (`none` entries are the errored ones the scanner skips). -/
def entryNames (entries : List (Option (String × FS))) : List String :=
  entries.filterMap (fun e => e.map (fun nf => nf.1))

mutual
/-- Well-formedness of the modelled filesystem: within any directory the
readable entries bear pairwise distinct names (true of every real
filesystem, where a directory cannot contain two entries of the same name). -/
def wfFS : FS → Bool
  | .file _ => true
  | .metaErr => true
  | .dirErr => true
  | .dir entries => nodupB (entryNames entries) && wfEntries entries

/-- `wfFS` holds below every readable entry of the list. -/
def wfEntries : List (Option (String × FS)) → Bool
  | [] => true
  | none :: rest => wfEntries rest
  | some (_, fs) :: rest => wfFS fs && wfEntries rest
end

/-- A scanned node carries exactly the path it was scanned at. -/
theorem scan_path (path : FsPath) (fs : FS) (n : Node)
    (h : scan_with_progress path fs = .ok n) : n.path = path := by
  cases fs with
  | file sz => simp only [scan_with_progress] at h; cases h; rfl
  | metaErr => simp only [scan_with_progress] at h; cases h
  | dirErr => simp only [scan_with_progress] at h; cases h
  | dir entries =>
    simp only [scan_with_progress] at h
    cases he : scan_entries path entries with
    | error e => rw [he] at h; cases h
    | ok children => rw [he] at h; cases h; rfl

/-- The paths of the children built by `scan_entries` are the parent path
extended by the names of the readable entries, in order. -/
theorem scan_entries_paths (path : FsPath) :
    ∀ entries cs, scan_entries path entries = .ok cs →
      cs.map Node.path = (entryNames entries).map (fun nm => path ++ [nm]) := by
  intro entries
  induction entries with
  | nil =>
    intro cs h
    simp only [scan_entries] at h
    cases h
    rfl
  | cons e rest ihr =>
    intro cs h
    cases e with
    | none =>
      simp only [scan_entries] at h
      simp only [entryNames, List.filterMap_cons, Option.map_none']
      exact ihr cs h
    | some nf =>
      obtain ⟨name, fs⟩ := nf
      simp only [scan_entries] at h
      cases hc : scan_with_progress (path ++ [name]) fs with
      | error e' => rw [hc] at h; cases h
      | ok child =>
        rw [hc] at h
        cases hr : scan_entries path rest with
        | error e' => rw [hr] at h; cases h
        | ok rest' =>
          rw [hr] at h
          cases h
          simp only [entryNames, List.filterMap_cons, Option.map_some',
            List.map_cons]
          rw [scan_path _ _ _ hc]
          have := ihr rest' hr
          simp only [entryNames] at this
          rw [this]

theorem pathCmp_lt_of {a b : FsPath} (h1 : pathCmp a b ≠ .gt) (h2 : a ≠ b) :
    pathCmp a b = .lt := by
  cases hc : pathCmp a b with
  | lt => rfl
  | eq => exact absurd ((pathCmp_eq_iff a b).mp hc) h2
  | gt => exact absurd hc h1

theorem childLt_of_le_ne : ∀ a b : Node, node_le a b = true →
    a.path ≠ b.path → childLt a b = true := by
  intro a b hle hne
  rw [node_le_iff] at hle
  cases a <;> cases b <;>
    simp only [childLt, Node.isDir, Node.path, nodeCmp] at hle hne ⊢ <;>
    first
    | (exact absurd rfl hle)
    | (rw [pathCmp_lt_of hle hne]; decide)
    | simp

theorem scan_entries_orderedOk (path : FsPath) :
    ∀ entries cs,
      (∀ e ∈ entries, ∀ name fs, e = some (name, fs) →
        wfFS fs = true → ∀ q m, scan_with_progress q fs = .ok m →
          orderedOkB m = true) →
      wfEntries entries = true →
      scan_entries path entries = .ok cs → orderedOkList cs = true := by
  intro entries
  induction entries with
  | nil =>
    intro cs _ _ h
    simp only [scan_entries] at h
    cases h
    rfl
  | cons e rest ihr =>
    intro cs ih hwf h
    cases e with
    | none =>
      simp only [scan_entries] at h
      simp only [wfEntries] at hwf
      exact ihr cs (fun e' he' => ih e' (by simp [he'])) hwf h
    | some nf =>
      obtain ⟨name, fs⟩ := nf
      simp only [scan_entries] at h
      simp only [wfEntries, Bool.and_eq_true] at hwf
      cases hc : scan_with_progress (path ++ [name]) fs with
      | error e' => rw [hc] at h; cases h
      | ok child =>
        rw [hc] at h
        cases hr : scan_entries path rest with
        | error e' => rw [hr] at h; cases h
        | ok rest' =>
          rw [hr] at h
          cases h
          have h1 : orderedOkB child = true :=
            ih _ (by simp) name fs rfl hwf.1 _ child hc
          have h2 : orderedOkList rest' = true :=
            ihr rest' (fun e' he' => ih e' (by simp [he'])) hwf.2 hr
          simp [orderedOkList, h1, h2]

/-- Claim C5, main direction: on a well-formed filesystem (distinct entry
names in every directory), every directory of a scanned tree has its
children pairwise in the strict canonical order, recursively. -/
theorem scan_orderedOk :
    ∀ fs, wfFS fs = true →
      ∀ path n, scan_with_progress path fs = .ok n → orderedOkB n = true := by
  intro fs
  induction fs using fsInduction with
  | hfile sz =>
    intro _ path n h
    simp only [scan_with_progress] at h
    cases h
    rfl
  | hmeta => intro _ path n h; simp only [scan_with_progress] at h; cases h
  | hlist => intro _ path n h; simp only [scan_with_progress] at h; cases h
  | hdir entries ih =>
    intro hwf path n h
    simp only [wfFS, Bool.and_eq_true] at hwf
    obtain ⟨hnodupE, hwfE⟩ := hwf
    rw [nodupB_iff] at hnodupE
    simp only [scan_with_progress] at h
    cases he : scan_entries path entries with
    | error e' => rw [he] at h; cases h
    | ok children =>
      rw [he] at h
      cases h
      have hperm : (sort_children children).Perm children :=
        List.mergeSort_perm children node_le
      -- every node below the children is recursively ordered
      have hall : orderedOkList children = true :=
        scan_entries_orderedOk path entries children
          (fun e he' name fs hef hw q m hs => ih e he' name fs hef hw q m hs)
          hwfE he
      -- the sorted children are pairwise `node_le`
      have hpw_le : List.Pairwise (fun a b => node_le a b = true)
          (sort_children children) :=
        List.sorted_mergeSort (fun a b c => node_le_trans a b c)
          node_le_total children
      -- the children's paths are pairwise distinct
      have hpaths : children.map Node.path =
          (entryNames entries).map (fun nm => path ++ [nm]) :=
        scan_entries_paths path entries children he
      have hinj : Function.Injective (fun nm : String => path ++ [nm]) := by
        intro x y hxy
        have := List.append_cancel_left hxy
        simpa using this
      have hnodupP : (children.map Node.path).Nodup := by
        rw [hpaths]
        exact hnodupE.map hinj
      have hnodupS : ((sort_children children).map Node.path).Nodup := by
        have hpm : ((sort_children children).map Node.path).Perm
            (children.map Node.path) := hperm.map Node.path
        exact (hpm.nodup_iff).mpr hnodupP
      have hpw_ne : List.Pairwise (fun a b : Node => a.path ≠ b.path)
          (sort_children children) := by
        have h := hnodupS
        unfold List.Nodup at h
        exact List.pairwise_map.mp h
      have hpw : List.Pairwise (fun a b => childLt a b = true)
          (sort_children children) :=
        (hpw_le.and hpw_ne).imp (fun hab => childLt_of_le_ne _ _ hab.1 hab.2)
      simp only [orderedOkB, Bool.and_eq_true]
      constructor
      · exact (pairwiseB_iff childLt _).mpr hpw
      · rw [orderedOkList_eq_all] at hall ⊢
        rw [List.all_eq_true] at hall ⊢
        intro x hx
        exact hall x (hperm.mem_iff.mp hx)

/-! ## UI state (`src/ui_state.rs`)

`UiState` in the source borrows the tree (`root: &'a Node`,
`expanded_nodes: Vec<&'a Node>`).  References are modelled by the values
they point at; this is faithful to the observable behaviour of the code
because every operation performed on those references (`contains`,
`position(|&x| x == target)`, pushing, removing, and reading fields)
dereferences them: the derived `PartialEq` on `Node` compares by value, so
membership in `expanded_nodes` is by value, which `Node.beq` mirrors.
`Theme` (from `src/theme.rs`) is carried but never read by the state logic.
-/

/-- `Color` from `src/theme.rs`. -/
inductive Color where
  | Preset (name : String)
  | RGB (r g b : Nat)
deriving DecidableEq

/-- `Theme` from `src/theme.rs` (colors used only by the renderer). -/
structure Theme where
  reset : Color
  fg_reset : Color
  dir : Color
  file : Color
  error : Color
  highlight_start : Color
  highlight_end : Color
  dir_gradient_start : Color
  dir_gradient_end : Color
  file_gradient_start : Color
  file_gradient_end : Color
deriving DecidableEq

/-- `Theme::default()`. -/
def Theme.default : Theme where
  reset := .Preset "reset"
  fg_reset := .Preset "fg_reset"
  dir := .Preset "blue"
  file := .Preset "white"
  error := .Preset "red"
  highlight_start := .Preset "invert"
  highlight_end := .Preset "reset"
  dir_gradient_start := .RGB 58 123 213
  dir_gradient_end := .RGB 0 210 255
  file_gradient_start := .RGB 180 180 180
  file_gradient_end := .RGB 255 200 120

/-- `Action` — the decoded input actions consumed by `UiState::update`
(named `UiState.Action` here because Mathlib already has a root `Action`). -/
inductive UiState.Action where
  | Toggle (index : Nat)
  | ToggleAtCursor
  | MoveUp
  | MoveDown
  | Enter
  | InputDigit (ch : Char)
  | InputBackspace
  | Quit

/-- `StatusMessage` — status line text with an error flag. -/
structure StatusMessage where
  text : String
  is_error : Bool
deriving DecidableEq

/-- `ViewItem` — one row of the flattened view: a node reference and its
depth (the reference modelled by the node value). -/
structure ViewItem where
  node : Node
  depth : Nat
deriving DecidableEq

/-- `UiState` — the session state. -/
structure UiState where
  root : Node
  expanded_nodes : List Node
  cursor : Nat
  viewport_height : Nat
  input_buffer : String
  status : Option StatusMessage
  theme : Theme

/-- `UiState::new` — root pre-expanded, cursor 0, viewport 20, empty
buffer, no status. -/
def UiState.new (root : Node) (theme : Theme) : UiState where
  root := root
  expanded_nodes := [root]
  cursor := 0
  viewport_height := 20
  input_buffer := ""
  status := none
  theme := theme

mutual
/-- `UiState::collect_recursive` — pushes the node, then recurses into the
children only when the node is a directory and `expanded_nodes` contains it
(`Vec::contains`, i.e. value equality).  The `expanded` argument is
`self.expanded_nodes`, the only field of `self` the method reads. -/
def collect_recursive (expanded : List Node) : Node → Nat → List ViewItem
  | n, depth =>
    ⟨n, depth⟩ ::
      (match n with
       | .file _ _ => []
       | .dir p sz cs =>
         if expanded.contains (Node.dir p sz cs) then
           collect_children expanded cs (depth + 1)
         else [])

/-- The `for child in prop.children()` loop inside `collect_recursive`. -/
def collect_children (expanded : List Node) : List Node → Nat → List ViewItem
  | [], _ => []
  | c :: cs, depth =>
    collect_recursive expanded c depth ++ collect_children expanded cs depth
end

/-- `UiState::flatten_view`. -/
def UiState.flatten_view (s : UiState) : List ViewItem :=
  collect_recursive s.expanded_nodes s.root 0

/-- `UiState::move_cursor` — saturating move by a signed delta, clamped to
`view_len - 1`; an empty view forces cursor 0. -/
def UiState.move_cursor (s : UiState) (delta : Int) (view_len : Nat) : UiState :=
  if view_len = 0 then { s with cursor := 0 }
  else
    let new_cursor :=
      if delta < 0 then s.cursor - delta.natAbs
      else min (s.cursor + delta.toNat) (view_len - 1)
    { s with cursor := new_cursor }

/-- `UiState::set_error`. -/
def UiState.set_error (s : UiState) (message : String) : UiState :=
  { s with status := some ⟨message, true⟩ }

/-- `UiState::clear_status`. -/
def UiState.clear_status (s : UiState) : UiState :=
  { s with status := none }

/-- `UiState::toggle_by_index` — resolve the row, reject files, flip
membership (`position` finds the first value-equal element; `remove` takes
it out, otherwise `push` appends), then re-clamp the cursor against the new
view length.  The `Err` results of the source carry `anyhow` messages (the
file case formats the node with `Debug`; rendered here as its path and
size), and failures occur before any mutation. -/
def UiState.toggle_by_index (s : UiState) (index : Nat) :
    Except String UiState :=
  let view := s.flatten_view
  match view[index]? with
  | none => .error ("Index " ++ toString index ++ " not found!")
  | some item =>
    match item.node with
    | .file p sz =>
      .error ("Node " ++ String.intercalate "/" p ++ " (" ++ toString sz
        ++ " B) cannot be toggled because it is a file.")
    | .dir p sz cs =>
      let target := Node.dir p sz cs
      let expanded' :=
        match s.expanded_nodes.findIdx? (fun x => x == target) with
        | some idx => s.expanded_nodes.eraseIdx idx
        | none => s.expanded_nodes ++ [target]
      let view_len := (collect_recursive expanded' s.root 0).length
      let cursor' := if s.cursor ≥ view_len then view_len - 1 else s.cursor
      .ok { s with expanded_nodes := expanded', cursor := cursor' }

/-- `UiState::toggle_at_cursor`. -/
def UiState.toggle_at_cursor (s : UiState) : Except String UiState :=
  s.toggle_by_index s.cursor

/-- `usize::MAX` (the build targets 64-bit). -/
def usizeMax : Nat := 2 ^ 64 - 1

/-- `str::parse::<usize>()` as invoked on `input_buffer`: the buffer only
ever holds ASCII digits (see `InputDigit`), so of Rust's accepted forms
only all-digit strings matter; parsing fails on an empty string, on a
non-digit, and on overflow past `usize::MAX`. -/
def parse_usize (st : String) : Option Nat :=
  if st.isEmpty then none
  else if st.data.all Char.isDigit then
    let v := st.data.foldl (fun acc c => acc * 10 + (c.toNat - 48)) 0
    if v ≤ usizeMax then some v else none
  else none

/-- `UiState::update` — the action handler.  The source returns
`anyhow::Result<bool>` but every arm yields `Ok(..)` (toggle failures are
converted to an error status), so the result is modelled as the updated
state paired with the continue flag. -/
def UiState.update (s : UiState) (action : UiState.Action) : UiState × Bool :=
  let view_len := s.flatten_view.length
  match action with
  | .MoveUp =>
    (({ s with input_buffer := "" }).clear_status.move_cursor (-1) view_len,
      true)
  | .MoveDown =>
    (({ s with input_buffer := "" }).clear_status.move_cursor 1 view_len,
      true)
  | .ToggleAtCursor =>
    let s := { s with input_buffer := "" }
    match s.toggle_at_cursor with
    | .ok s' => (s'.clear_status, true)
    | .error e => (s.set_error e, true)
  | .Toggle index =>
    let s := { s with input_buffer := "" }
    match s.toggle_by_index index with
    | .ok s' =>
      (({ s' with cursor := min index (s'.flatten_view.length - 1)
        }).clear_status, true)
    | .error e => (s.set_error e, true)
  | .Enter =>
    if s.input_buffer.isEmpty then
      match s.toggle_at_cursor with
      | .ok s' => ({ s'.clear_status with input_buffer := "" }, true)
      | .error e => ({ s.set_error e with input_buffer := "" }, true)
    else
      match parse_usize s.input_buffer with
      | none =>
        ({ s.set_error ("Invalid index: " ++ s.input_buffer) with
          input_buffer := "" }, true)
      | some index =>
        match s.toggle_by_index index with
        | .ok s' =>
          ({ ({ s' with cursor := min index (s'.flatten_view.length - 1)
            }).clear_status with input_buffer := "" }, true)
        | .error e => ({ s.set_error e with input_buffer := "" }, true)
  | .InputDigit ch =>
    let s :=
      if ch.isDigit then { s with input_buffer := s.input_buffer.push ch }
      else s
    (s.clear_status, true)
  | .InputBackspace =>
    ({ s with input_buffer := s.input_buffer.dropRight 1 }.clear_status, true)
  | .Quit => (s, false)

/-! ## Projection correctness (claim C4)

To speak about "a node and its ancestors" unambiguously we index tree
positions by occurrences: lists of child indices from the root.
`flattenOcc` is `collect_recursive` instrumented with occurrences; erasing
the occurrence (keeping its length as the depth) recovers the code's
projection exactly (`flattenOcc_erase`).
-/

/-- The subtree of a node at an occurrence (child-index path). -/
def subtreeAt : Node → List Nat → Option Node
  | n, [] => some n
  | .file _ _, _ :: _ => none
  | .dir _ _ cs, i :: rest =>
    match cs[i]? with
    | none => none
    | some c => subtreeAt c rest

/-- Every proper ancestor of the occurrence (the positions strictly above
it) is a member of `expanded` — membership tested exactly as the code does,
by `contains` (value equality). -/
def ancestors_expanded (expanded : List Node) : Node → List Nat → Bool
  | _, [] => true
  | n, i :: rest =>
    match n with
    | .file _ _ => false
    | .dir p sz cs =>
      expanded.contains (Node.dir p sz cs) &&
        (match cs[i]? with
         | none => false
         | some c => ancestors_expanded expanded c rest)

mutual
/-- `collect_recursive` instrumented with occurrences. -/
def flattenOcc (expanded : List Node) : List Nat → Node → List (List Nat × Node)
  | o, n =>
    (o, n) ::
      (match n with
       | .file _ _ => []
       | .dir p sz cs =>
         if expanded.contains (Node.dir p sz cs) then
           flattenOccChildren expanded o 0 cs
         else [])

/-- `collect_children` instrumented with occurrences (`i` is the index of
the first child in `cs` relative to the parent). -/
def flattenOccChildren (expanded : List Node) :
    List Nat → Nat → List Node → List (List Nat × Node)
  | _, _, [] => []
  | o, i, c :: cs =>
    flattenOcc expanded (o ++ [i]) c ++ flattenOccChildren expanded o (i + 1) cs
end

/-- Forgetting the occurrence, keeping its length as the depth. -/
def eraseOccItem (x : List Nat × Node) : ViewItem := ⟨x.2, x.1.length⟩

theorem flattenOccChildren_erase (expanded : List Node) :
    ∀ cs o i,
      (∀ c ∈ cs, ∀ o' : List Nat,
        (flattenOcc expanded o' c).map eraseOccItem =
          collect_recursive expanded c o'.length) →
      (flattenOccChildren expanded o i cs).map eraseOccItem =
        collect_children expanded cs (o.length + 1) := by
  intro cs
  induction cs with
  | nil => intro o i _; rfl
  | cons c cs' ihc =>
    intro o i ih
    simp only [flattenOccChildren, collect_children, List.map_append]
    have h1 := ih c (by simp) (o ++ [i])
    simp only [List.length_append, List.length_cons, List.length_nil] at h1
    rw [h1]
    rw [ihc o (i + 1) (fun c' hc' => ih c' (by simp [hc']))]

theorem flattenOcc_erase (expanded : List Node) :
    ∀ n o, (flattenOcc expanded o n).map eraseOccItem =
      collect_recursive expanded n o.length := by
  intro n
  induction n using nodeInduction with
  | hfile p s => intro o; rfl
  | hdir p s cs ih =>
    intro o
    simp only [flattenOcc, collect_recursive, List.map_cons, eraseOccItem]
    by_cases hc : expanded.contains (Node.dir p s cs) = true
    · rw [if_pos hc, if_pos hc]
      rw [flattenOccChildren_erase expanded cs o 0 (fun c hc' o' => ih c hc' o')]
    · rw [if_neg hc, if_neg hc]
      rfl

theorem flattenOccChildren_mem (expanded : List Node) :
    ∀ (cs : List Node) (o : List Nat) (i : Nat) (o' : List Nat) (n' : Node),
      ((o', n') ∈ flattenOccChildren expanded o i cs) ↔
        ∃ k c, cs[k]? = some c ∧
          (o', n') ∈ flattenOcc expanded (o ++ [i + k]) c := by
  intro cs
  induction cs with
  | nil =>
    intro o i o' n'
    simp [flattenOccChildren]
  | cons c cs' ihc =>
    intro o i o' n'
    simp only [flattenOccChildren, List.mem_append]
    constructor
    · intro h
      cases h with
      | inl h => exact ⟨0, c, by simp, by simpa using h⟩
      | inr h =>
        obtain ⟨k, c', hk, hm⟩ := (ihc o (i + 1) o' n').mp h
        refine ⟨k + 1, c', by simpa using hk, ?_⟩
        have : i + 1 + k = i + (k + 1) := by omega
        rw [← this]
        exact hm
    · rintro ⟨k, c', hk, hm⟩
      cases k with
      | zero =>
        left
        simp only [List.getElem?_cons_zero, Option.some.injEq] at hk
        subst hk
        simpa using hm
      | succ k' =>
        right
        simp only [List.getElem?_cons_succ] at hk
        refine (ihc o (i + 1) o' n').mpr ⟨k', c', hk, ?_⟩
        have : i + 1 + k' = i + (k' + 1) := by omega
        rw [this]
        exact hm

theorem flattenOcc_mem (expanded : List Node) :
    ∀ (n : Node) (o o' : List Nat) (n' : Node),
      ((o', n') ∈ flattenOcc expanded o n) ↔
        ∃ rel, o' = o ++ rel ∧ subtreeAt n rel = some n' ∧
          ancestors_expanded expanded n rel = true := by
  intro n
  induction n using nodeInduction with
  | hfile p s =>
    intro o o' n'
    simp only [flattenOcc, List.mem_cons, List.not_mem_nil, or_false]
    constructor
    · intro h
      rw [Prod.mk.injEq] at h
      obtain ⟨rfl, rfl⟩ := h
      exact ⟨[], by simp, by simp [subtreeAt], rfl⟩
    · rintro ⟨rel, hrel, hsub, hanc⟩
      cases rel with
      | nil =>
        simp only [subtreeAt, Option.some.injEq] at hsub
        simp [hrel, hsub]
      | cons i r => simp [subtreeAt] at hsub
  | hdir p s cs ih =>
    intro o o' n'
    simp only [flattenOcc, List.mem_cons]
    by_cases hc : expanded.contains (Node.dir p s cs) = true
    · rw [if_pos hc]
      rw [flattenOccChildren_mem expanded cs o 0 o' n']
      constructor
      · intro h
        cases h with
        | inl h =>
          rw [Prod.mk.injEq] at h
          obtain ⟨rfl, rfl⟩ := h
          exact ⟨[], by simp, by simp [subtreeAt], rfl⟩
        | inr h =>
          obtain ⟨k, c, hk, hm⟩ := h
          obtain ⟨rel', hrel', hsub', hanc'⟩ :=
            (ih c (List.getElem?_mem hk) (o ++ [0 + k]) o' n').mp hm
          refine ⟨k :: rel', ?_, ?_, ?_⟩
          · rw [hrel']
            simp
          · simp [subtreeAt, hk, hsub']
          · have hcm : Node.dir p s cs ∈ expanded := by simpa using hc
            simp [ancestors_expanded, hc, hk, hanc', hcm]
      · rintro ⟨rel, hrel, hsub, hanc⟩
        cases rel with
        | nil =>
          left
          simp only [subtreeAt, Option.some.injEq] at hsub
          simp [hrel, hsub]
        | cons k rel' =>
          right
          simp only [subtreeAt] at hsub
          cases hk : cs[k]? with
          | none => rw [hk] at hsub; cases hsub
          | some c =>
            rw [hk] at hsub
            simp only [ancestors_expanded, hc, Bool.true_and, hk] at hanc
            refine ⟨k, c, hk, ?_⟩
            refine (ih c (List.getElem?_mem hk) (o ++ [0 + k]) o' n').mpr
              ⟨rel', ?_, hsub, hanc⟩
            rw [hrel]
            simp
    · rw [if_neg hc]
      simp only [List.not_mem_nil, or_false]
      constructor
      · intro h
        rw [Prod.mk.injEq] at h
        obtain ⟨rfl, rfl⟩ := h
        exact ⟨[], by simp, by simp [subtreeAt], rfl⟩
      · rintro ⟨rel, hrel, hsub, hanc⟩
        cases rel with
        | nil =>
          simp only [subtreeAt, Option.some.injEq] at hsub
          simp [hrel, hsub]
        | cons k rel' =>
          simp only [ancestors_expanded, Bool.and_eq_true] at hanc
          exact absurd hanc.1 hc

theorem flattenOccChildren_decomp (expanded : List Node) (n : Node) :
    ∀ (cs : List Node) (b : List Nat) (i : Nat) (o : List Nat),
      (∀ c ∈ cs, ∀ b' o', (o', n) ∈ flattenOcc expanded b' c →
        ∃ A B, flattenOcc expanded b' c =
          A ++ flattenOcc expanded o' n ++ B) →
      (o, n) ∈ flattenOccChildren expanded b i cs →
      ∃ A B, flattenOccChildren expanded b i cs =
        A ++ flattenOcc expanded o n ++ B := by
  intro cs
  induction cs with
  | nil => intro b i o _ h; simp [flattenOccChildren] at h
  | cons c cs' ihc =>
    intro b i o ih h
    simp only [flattenOccChildren, List.mem_append] at h
    cases h with
    | inl h =>
      obtain ⟨A', B', hd⟩ := ih c (by simp) (b ++ [i]) o h
      exact ⟨A', B' ++ flattenOccChildren expanded b (i + 1) cs',
        by rw [flattenOccChildren, hd]; simp⟩
    | inr h =>
      obtain ⟨A', B', hd⟩ :=
        ihc b (i + 1) o (fun c' hc' => ih c' (by simp [hc'])) h
      exact ⟨flattenOcc expanded (b ++ [i]) c ++ A', B',
        by rw [flattenOccChildren, hd]; simp⟩

/-- Any element of the instrumented projection heads a contiguous block
that is exactly the projection of its own subtree. -/
theorem flattenOcc_decomp (expanded : List Node) :
    ∀ (t : Node) (b o : List Nat) (m : Node),
      (o, m) ∈ flattenOcc expanded b t →
      ∃ A B, flattenOcc expanded b t =
        A ++ flattenOcc expanded o m ++ B := by
  intro t
  induction t using nodeInduction with
  | hfile p s =>
    intro b o m h
    simp only [flattenOcc, List.mem_cons, List.not_mem_nil, or_false] at h
    rw [Prod.mk.injEq] at h
    obtain ⟨rfl, rfl⟩ := h
    exact ⟨[], [], by simp⟩
  | hdir p s cs ih =>
    intro b o m h
    rw [flattenOcc] at h
    rcases List.mem_cons.mp h with h | h
    · rw [Prod.mk.injEq] at h
      obtain ⟨rfl, rfl⟩ := h
      exact ⟨[], [], by simp⟩
    · by_cases hc : expanded.contains (Node.dir p s cs) = true
      · rw [if_pos hc] at h
        obtain ⟨A', B', hd⟩ :=
          flattenOccChildren_decomp expanded m cs b 0 o
            (fun c hcc b' o' hm => ih c hcc b' o' m hm) h
        refine ⟨(b, Node.dir p s cs) :: A', B', ?_⟩
        rw [flattenOcc, if_pos hc, hd]
        simp
      · rw [if_neg hc] at h
        simp at h

/-! ## Machinery for claim C7 (toggle twice)

`treeVals` collects the (value-)nodes of a tree; when it has no duplicates,
changing the expansion membership of one value `n` perturbs the projection
only inside the contiguous block of `n`'s own subtree.
-/

mutual
/-- All nodes of the tree, as values, in depth-first order. -/
def treeVals : Node → List Node
  | .file p s => [.file p s]
  | .dir p s cs => .dir p s cs :: treeValsList cs

/-- `treeVals` over a child list. -/
def treeValsList : List Node → List Node
  | [] => []
  | c :: cs => treeVals c ++ treeValsList cs
end

theorem mem_treeVals_self : ∀ n : Node, n ∈ treeVals n := by
  intro n
  cases n <;> simp [treeVals]

theorem mem_treeValsList_of_mem :
    ∀ (cs : List Node) (c : Node), c ∈ cs → ∀ m ∈ treeVals c,
      m ∈ treeValsList cs := by
  intro cs
  induction cs with
  | nil => intro c hc; cases hc
  | cons c' cs' ihc =>
    intro c hc m hm
    rcases List.mem_cons.mp hc with rfl | hc'
    · simp [treeValsList, List.mem_append]
      exact Or.inl hm
    · simp only [treeValsList, List.mem_append]
      exact Or.inr (ihc c hc' m hm)

theorem flattenOccChildren_mem_treeVals (expanded : List Node) :
    ∀ (cs : List Node) (b : List Nat) (i : Nat) (o : List Nat) (m : Node),
      (∀ c ∈ cs, ∀ b' o', (o', m) ∈ flattenOcc expanded b' c →
        m ∈ treeVals c) →
      (o, m) ∈ flattenOccChildren expanded b i cs →
      m ∈ treeValsList cs := by
  intro cs
  induction cs with
  | nil => intro b i o m _ h; simp [flattenOccChildren] at h
  | cons c cs' ihc =>
    intro b i o m ih h
    simp only [flattenOccChildren, List.mem_append] at h
    simp only [treeValsList, List.mem_append]
    cases h with
    | inl h => exact Or.inl (ih c (by simp) (b ++ [i]) o h)
    | inr h =>
      exact Or.inr (ihc b (i + 1) o m (fun c' hc' => ih c' (by simp [hc'])) h)

theorem flattenOcc_mem_treeVals (expanded : List Node) :
    ∀ (t : Node) (b o : List Nat) (m : Node),
      (o, m) ∈ flattenOcc expanded b t → m ∈ treeVals t := by
  intro t
  induction t using nodeInduction with
  | hfile p s =>
    intro b o m h
    simp only [flattenOcc, List.mem_cons, List.not_mem_nil, or_false] at h
    rw [Prod.mk.injEq] at h
    obtain ⟨rfl, rfl⟩ := h
    exact mem_treeVals_self _
  | hdir p s cs ih =>
    intro b o m h
    rw [flattenOcc] at h
    rcases List.mem_cons.mp h with h | h
    · rw [Prod.mk.injEq] at h
      obtain ⟨rfl, rfl⟩ := h
      exact mem_treeVals_self _
    · by_cases hc : expanded.contains (Node.dir p s cs) = true
      · rw [if_pos hc] at h
        have := flattenOccChildren_mem_treeVals expanded cs b 0 o m
          (fun c hcc b' o' hm => ih c hcc b' o' m hm) h
        simp only [treeVals, List.mem_cons]
        exact Or.inr this
      · rw [if_neg hc] at h
        simp at h

theorem treeValsList_sizeOf :
    ∀ (cs : List Node) (m : Node),
      (∀ c ∈ cs, ∀ m' ∈ treeVals c, sizeOf m' ≤ sizeOf c) →
      m ∈ treeValsList cs → sizeOf m < 1 + sizeOf cs := by
  intro cs
  induction cs with
  | nil => intro m _ h; simp [treeValsList] at h
  | cons c cs' ihc =>
    intro m ih h
    simp only [treeValsList, List.mem_append] at h
    cases h with
    | inl h =>
      have h1 := ih c (by simp) m h
      have : sizeOf c < sizeOf (c :: cs') := by
        simp only [List.cons.sizeOf_spec]
        omega
      simp only [List.cons.sizeOf_spec]
      omega
    | inr h =>
      have h1 := ihc m (fun c' hc' => ih c' (by simp [hc'])) h
      simp only [List.cons.sizeOf_spec]
      omega

theorem treeVals_sizeOf :
    ∀ (t : Node) (m : Node), m ∈ treeVals t → sizeOf m ≤ sizeOf t := by
  intro t
  induction t using nodeInduction with
  | hfile p s =>
    intro m h
    simp only [treeVals, List.mem_cons, List.not_mem_nil, or_false] at h
    subst h
    exact Nat.le_refl _
  | hdir p s cs ih =>
    intro m h
    simp only [treeVals, List.mem_cons] at h
    cases h with
    | inl h => subst h; exact Nat.le_refl _
    | inr h =>
      have := treeValsList_sizeOf cs m ih h
      simp only [Node.dir.sizeOf_spec]
      omega

/-- A node strictly below a directory is never equal (as a value) to the
directory itself. -/
theorem ne_dir_of_mem_treeValsList (p : FsPath) (s : Nat) (cs : List Node)
    (m : Node) (hm : m ∈ treeValsList cs) : m ≠ Node.dir p s cs := by
  intro heq
  subst heq
  have := treeValsList_sizeOf cs (Node.dir p s cs)
    (fun c hc m' hm' => treeVals_sizeOf c m' hm') hm
  simp only [Node.dir.sizeOf_spec] at this
  omega

theorem flattenOccChildren_congr (e e' : List Node) :
    ∀ (cs : List Node) (b : List Nat) (i : Nat),
      (∀ c ∈ cs, ∀ b' : List Nat,
        (∀ x ∈ treeVals c, e.contains x = e'.contains x) →
        flattenOcc e b' c = flattenOcc e' b' c) →
      (∀ x ∈ treeValsList cs, e.contains x = e'.contains x) →
      flattenOccChildren e b i cs = flattenOccChildren e' b i cs := by
  intro cs
  induction cs with
  | nil => intro b i _ _; rfl
  | cons c cs' ihc =>
    intro b i ih hagree
    simp only [flattenOccChildren]
    rw [ih c (by simp) (b ++ [i])
      (fun x hx => hagree x (by simp [treeValsList, List.mem_append, hx]))]
    rw [ihc b (i + 1) (fun c' hc' => ih c' (by simp [hc']))
      (fun x hx => hagree x (by simp [treeValsList, List.mem_append, hx]))]

/-- The projection only consults membership of the values that occur in the
tree: two expansion lists agreeing there project identically. -/
theorem flattenOcc_congr (e e' : List Node) :
    ∀ (t : Node) (b : List Nat),
      (∀ x ∈ treeVals t, e.contains x = e'.contains x) →
      flattenOcc e b t = flattenOcc e' b t := by
  intro t
  induction t using nodeInduction with
  | hfile p s => intro b _; rfl
  | hdir p s cs ih =>
    intro b hagree
    rw [flattenOcc, flattenOcc]
    have hd : e.contains (Node.dir p s cs) = e'.contains (Node.dir p s cs) :=
      hagree _ (mem_treeVals_self _)
    rw [← hd]
    by_cases hc : e.contains (Node.dir p s cs) = true
    · rw [if_pos hc, if_pos hc]
      rw [flattenOccChildren_congr e e' cs b 0
        (fun c hcc b' hg => ih c hcc b' hg)
        (fun x hx => hagree x (by simp [treeVals, List.mem_cons, hx]))]
    · rw [if_neg hc, if_neg hc]

theorem flattenOccChildren_decompIdx (e e' : List Node) (n : Node)
    (hagree : ∀ x : Node, x ≠ n → e.contains x = e'.contains x) :
    ∀ (cs : List Node) (b : List Nat) (i j : Nat) (o : List Nat),
      (∀ c ∈ cs, ∀ (b' : List Nat) (j' : Nat) (o' : List Nat),
        (treeVals c).Nodup →
        (flattenOcc e b' c)[j']? = some (o', n) →
        ∃ A B, flattenOcc e b' c = A ++ flattenOcc e o' n ++ B ∧
          A.length = j' ∧
          flattenOcc e' b' c = A ++ flattenOcc e' o' n ++ B) →
      (treeValsList cs).Nodup →
      (flattenOccChildren e b i cs)[j]? = some (o, n) →
      ∃ A B, flattenOccChildren e b i cs = A ++ flattenOcc e o n ++ B ∧
        A.length = j ∧
        flattenOccChildren e' b i cs = A ++ flattenOcc e' o n ++ B := by
  intro cs
  induction cs with
  | nil => intro b i j o _ _ h; simp [flattenOccChildren] at h
  | cons c cs' ihc =>
    intro b i j o ih hnd h
    rw [treeValsList, List.nodup_append] at hnd
    obtain ⟨hnd1, hnd2, hdisj⟩ := hnd
    rw [flattenOccChildren] at h ⊢
    by_cases hj : j < (flattenOcc e (b ++ [i]) c).length
    · rw [List.getElem?_append, if_pos hj] at h
      obtain ⟨A', B', he1, hlen, he2⟩ := ih c (by simp) (b ++ [i]) j o hnd1 h
      have hnmem : n ∈ treeVals c :=
        flattenOcc_mem_treeVals e c (b ++ [i]) o n (List.getElem?_mem h)
      have hnot : n ∉ treeValsList cs' := List.disjoint_left.mp hdisj hnmem
      have htail : flattenOccChildren e' b (i + 1) cs' =
          flattenOccChildren e b (i + 1) cs' := by
        refine (flattenOccChildren_congr e e' cs' b (i + 1)
          (fun c' hc' b' hg => flattenOcc_congr e e' c' b' hg)
          (fun x hx => hagree x ?_)).symm
        intro hxn
        subst hxn
        exact hnot hx
      refine ⟨A', B' ++ flattenOccChildren e b (i + 1) cs', ?_, hlen, ?_⟩
      · rw [he1]; simp
      · rw [flattenOccChildren, he2, htail]; simp
    · rw [List.getElem?_append, if_neg hj] at h
      obtain ⟨A'', B'', he1, hlen, he2⟩ :=
        ihc b (i + 1) (j - (flattenOcc e (b ++ [i]) c).length) o
          (fun c' hc' => ih c' (by simp [hc'])) hnd2 h
      have hnmem : n ∈ treeValsList cs' :=
        flattenOccChildren_mem_treeVals e cs' b (i + 1) o n
          (fun c' hc' b' o' hm => flattenOcc_mem_treeVals e c' b' o' n hm)
          (List.getElem?_mem h)
      have hnot : n ∉ treeVals c := fun hxc =>
        List.disjoint_left.mp hdisj hxc hnmem
      have hhead : flattenOcc e' (b ++ [i]) c = flattenOcc e (b ++ [i]) c := by
        refine (flattenOcc_congr e e' c (b ++ [i]) (fun x hx =>
          hagree x ?_)).symm
        intro hxn
        subst hxn
        exact hnot hx
      refine ⟨flattenOcc e (b ++ [i]) c ++ A'', B'', ?_, ?_, ?_⟩
      · rw [he1]; simp
      · simp only [List.length_append]
        omega
      · rw [flattenOccChildren, hhead, he2]; simp

/-- If row `j` of the instrumented projection of a duplicate-free tree holds
`(o, n)`, the projection splits as `A ++ (subtree block of n) ++ B` with
`|A| = j`, and the projection under any expansion list that agrees outside
`n` splits with the *same* `A` and `B` around `n`'s new subtree block. -/
theorem flattenOcc_decompIdx (e e' : List Node) (n : Node)
    (hagree : ∀ x : Node, x ≠ n → e.contains x = e'.contains x) :
    ∀ (t : Node) (b : List Nat) (j : Nat) (o : List Nat),
      (treeVals t).Nodup →
      (flattenOcc e b t)[j]? = some (o, n) →
      ∃ A B, flattenOcc e b t = A ++ flattenOcc e o n ++ B ∧
        A.length = j ∧
        flattenOcc e' b t = A ++ flattenOcc e' o n ++ B := by
  intro t
  induction t using nodeInduction with
  | hfile p s =>
    intro b j o _ h
    rw [flattenOcc] at h
    cases j with
    | zero =>
      rw [List.getElem?_cons_zero, Option.some.injEq, Prod.mk.injEq] at h
      obtain ⟨rfl, rfl⟩ := h
      exact ⟨[], [], by simp, rfl, by simp⟩
    | succ j' =>
      rw [List.getElem?_cons_succ] at h
      simp at h
  | hdir p s cs ih =>
    intro b j o hnd h
    rw [flattenOcc] at h
    cases j with
    | zero =>
      rw [List.getElem?_cons_zero, Option.some.injEq, Prod.mk.injEq] at h
      obtain ⟨rfl, rfl⟩ := h
      exact ⟨[], [], by simp, rfl, by simp⟩
    | succ j' =>
      rw [List.getElem?_cons_succ] at h
      by_cases hc : e.contains (Node.dir p s cs) = true
      · rw [if_pos hc] at h
        rw [treeVals, List.nodup_cons] at hnd
        obtain ⟨A', B', he1, hlen, he2⟩ :=
          flattenOccChildren_decompIdx e e' n hagree cs b 0 j' o
            (fun c hcc b' j'' o' hnd' hg => ih c hcc b' j'' o' hnd' hg)
            hnd.2 h
        have hne : n ≠ Node.dir p s cs :=
          ne_dir_of_mem_treeValsList p s cs n
            (flattenOccChildren_mem_treeVals e cs b 0 o n
              (fun c' hc' b' o' hm => flattenOcc_mem_treeVals e c' b' o' n hm)
              (List.getElem?_mem h))
        have hc' : e'.contains (Node.dir p s cs) = true := by
          rw [← hagree _ (Ne.symm hne)]
          exact hc
        refine ⟨(b, Node.dir p s cs) :: A', B', ?_, ?_, ?_⟩
        · rw [flattenOcc, if_pos hc, he1]; simp
        · simp [hlen]
        · rw [flattenOcc, if_pos hc', he2]; simp
      · rw [if_neg hc] at h
        simp at h

/-! ## Bridging lemmas between the code's projection and the instrumented one -/

theorem contains_iff (l : List Node) (a : Node) :
    l.contains a = true ↔ a ∈ l := List.elem_iff

theorem contains_congr {l l' : List Node}
    (h : ∀ x : Node, x ∈ l ↔ x ∈ l') :
    ∀ x : Node, l.contains x = l'.contains x := by
  intro x
  rw [Bool.eq_iff_iff, contains_iff, contains_iff]
  exact h x

/-- `flatten_view` is the instrumented projection with occurrences erased. -/
theorem flatten_view_eq (s : UiState) :
    s.flatten_view =
      (flattenOcc s.expanded_nodes [] s.root).map eraseOccItem := by
  rw [UiState.flatten_view]
  exact (flattenOcc_erase s.expanded_nodes s.root []).symm

theorem getElem?_triple {α : Type} (A M B : List α) (hM : 0 < M.length) :
    (A ++ M ++ B)[A.length]? = M[0]? := by
  rw [List.append_assoc, List.getElem?_append_right (Nat.le_refl _),
    Nat.sub_self, List.getElem?_append]
  rw [if_pos hM]

theorem findIdx?_beq_none (l : List Node) (a : Node) :
    l.findIdx? (fun x => x == a) = none ↔ a ∉ l := by
  rw [List.findIdx?_eq_none_iff]
  constructor
  · intro h hmem
    have := h a hmem
    simp at this
  · intro h x hx
    simp only [beq_eq_false_iff_ne, ne_eq]
    intro hxa
    subst hxa
    exact h hx

theorem findIdx?_beq_some_mem (l : List Node) (a : Node) (idx : Nat)
    (h : l.findIdx? (fun x => x == a) = some idx) : a ∈ l := by
  rw [List.findIdx?_eq_some_iff_getElem] at h
  obtain ⟨hlt, hp, _⟩ := h
  simp only [beq_iff_eq] at hp
  rw [← hp]
  exact List.getElem_mem hlt

theorem eraseIdx_of_findIdx? (a : Node) :
    ∀ (l : List Node) (idx : Nat),
      l.findIdx? (fun x => x == a) = some idx →
      l.eraseIdx idx = l.erase a := by
  intro l
  induction l with
  | nil => intro idx h; simp [List.findIdx?_nil] at h
  | cons x xs ih =>
    intro idx h
    rw [List.findIdx?_cons] at h
    by_cases hx : (x == a) = true
    · rw [if_pos hx] at h
      rw [Option.some.injEq] at h
      subst h
      rw [List.eraseIdx_cons_zero, List.erase_cons, if_pos hx]
    · rw [if_neg hx, List.findIdx?_succ] at h
      cases hfi : List.findIdx? (fun x => x == a) xs with
      | none => rw [hfi] at h; cases h
      | some idx' =>
        rw [hfi] at h
        simp only [Option.map_some', Option.some.injEq] at h
        subst h
        rw [List.eraseIdx_cons_succ, List.erase_cons, if_neg hx, ih idx' hfi]

theorem eraseIdx_append_singleton (a : Node) :
    ∀ l : List Node, (l ++ [a]).eraseIdx l.length = l := by
  intro l
  induction l with
  | nil => rfl
  | cons x xs ih =>
    simp only [List.cons_append, List.length_cons, List.eraseIdx_cons_succ]
    rw [ih]

theorem findIdx?_append_singleton_self (a : Node) :
    ∀ l : List Node, a ∉ l →
      (l ++ [a]).findIdx? (fun x => x == a) = some l.length := by
  intro l
  induction l with
  | nil =>
    intro _
    simp only [List.nil_append, List.length_nil, List.findIdx?_cons]
    rw [if_pos (by simp)]
  | cons x xs ih =>
    intro h
    simp only [List.cons_append, List.findIdx?_cons]
    have hxa : ¬((x == a) = true) := by
      simp only [beq_iff_eq]
      intro heq
      exact h (by rw [← heq]; exact List.mem_cons_self x xs)
    rw [if_neg hxa]
    rw [List.findIdx?_succ, ih (fun hm => h (List.mem_cons_of_mem x hm))]
    simp

theorem flattenOcc_length_pos (e : List Node) (b : List Nat) (t : Node) :
    0 < (flattenOcc e b t).length := by
  cases t <;> (rw [flattenOcc]; simp)

theorem flattenOccChildren_length_pos (e : List Node) (b : List Nat) (i : Nat)
    (c : Node) (cs : List Node) :
    0 < (flattenOccChildren e b i (c :: cs)).length := by
  rw [flattenOccChildren]
  simp only [List.length_append]
  have := flattenOcc_length_pos e (b ++ [i]) c
  omega

theorem flattenOcc_dir_pos (e : List Node) (b : List Nat) (p : FsPath)
    (sz : Nat) (cs : List Node)
    (hc : e.contains (Node.dir p sz cs) = true) :
    flattenOcc e b (Node.dir p sz cs) =
      (b, Node.dir p sz cs) :: flattenOccChildren e b 0 cs := by
  rw [flattenOcc, if_pos hc]

theorem flattenOcc_dir_neg (e : List Node) (b : List Nat) (p : FsPath)
    (sz : Nat) (cs : List Node)
    (hc : ¬e.contains (Node.dir p sz cs) = true) :
    flattenOcc e b (Node.dir p sz cs) = [(b, Node.dir p sz cs)] := by
  rw [flattenOcc, if_neg hc]

theorem perm_cons_erase_beq {l : List Node} {a : Node} (h : a ∈ l) :
    l.Perm (a :: l.erase a) := by
  induction l with
  | nil => cases h
  | cons x xs ih =>
    rw [List.erase_cons]
    by_cases hx : (x == a) = true
    · rw [if_pos hx]
      have hxa : x = a := by simpa using hx
      subst hxa
      exact List.Perm.refl _
    · rw [if_neg hx]
      have hax : a ∈ xs := by
        rcases List.mem_cons.mp h with rfl | hm
        · exact absurd (by simp) hx
        · exact hm
      refine ((ih hax).cons x).trans ?_
      exact List.Perm.swap a x _

theorem flattenOcc_erase_nil (e : List Node) (t : Node) :
    (flattenOcc e [] t).map eraseOccItem = collect_recursive e t 0 := by
  have h := flattenOcc_erase e t []
  simpa using h

/-- Characterization of a successful `toggle_by_index`: when row `index`
resolves to a directory, the call returns `Ok` with membership of that
directory flipped in `expanded_nodes` and the cursor re-clamped; all other
fields are untouched. -/
theorem toggle_by_index_dir (s : UiState) (index : Nat) (p : FsPath)
    (sz : Nat) (cs : List Node) (d : Nat)
    (hview : (s.flatten_view)[index]? = some ⟨Node.dir p sz cs, d⟩) :
    ∃ s', s.toggle_by_index index = .ok s' ∧
      s'.expanded_nodes =
        (match s.expanded_nodes.findIdx? (fun x => x == Node.dir p sz cs) with
         | some idx => s.expanded_nodes.eraseIdx idx
         | none => s.expanded_nodes ++ [Node.dir p sz cs]) ∧
      s'.root = s.root ∧
      s'.input_buffer = s.input_buffer ∧
      s'.status = s.status ∧
      s'.viewport_height = s.viewport_height ∧
      s'.theme = s.theme ∧
      s'.cursor =
        (if s.cursor ≥ (collect_recursive s'.expanded_nodes s.root 0).length
         then (collect_recursive s'.expanded_nodes s.root 0).length - 1
         else s.cursor) := by
  rw [UiState.toggle_by_index]
  simp only [hview]
  exact ⟨_, rfl, rfl, rfl, rfl, rfl, rfl, rfl, rfl⟩

/-- Toggling the row `i` of a directory twice in a row: the first toggle
succeeds, the second succeeds too (the row still resolves to the same
node), the membership of `expanded_nodes` is restored up to permutation,
the restored view is exactly the original one, and — when the directory has
at least one child — the intermediate view differs from the original.
Assumes the tree is free of duplicate node values (true of scanned trees,
whose paths are pairwise distinct) and `expanded_nodes` has no duplicates
(an invariant of every reachable state). -/
theorem toggle_by_index_twice (s : UiState) (i : Nat)
    (p : FsPath) (sz : Nat) (cs : List Node) (d : Nat)
    (hndE : s.expanded_nodes.Nodup)
    (hndT : (treeVals s.root).Nodup)
    (hview : (s.flatten_view)[i]? = some ⟨Node.dir p sz cs, d⟩) :
    ∃ s1 s2, s.toggle_by_index i = .ok s1 ∧ s1.toggle_by_index i = .ok s2 ∧
      s2.expanded_nodes.Perm s.expanded_nodes ∧
      s2.flatten_view = s.flatten_view ∧
      (cs ≠ [] → s1.flatten_view ≠ s.flatten_view) := by
  have hocc : ∃ o : List Nat,
      (flattenOcc s.expanded_nodes [] s.root)[i]? = some (o, Node.dir p sz cs)
        ∧ o.length = d := by
    rw [flatten_view_eq, List.getElem?_map] at hview
    cases hfo : (flattenOcc s.expanded_nodes [] s.root)[i]? with
    | none => rw [hfo] at hview; cases hview
    | some pr =>
      rw [hfo] at hview
      obtain ⟨o', m'⟩ := pr
      simp only [Option.map_some', eraseOccItem, Option.some.injEq,
        ViewItem.mk.injEq] at hview
      obtain ⟨hm', hd'⟩ := hview
      subst hm'
      exact ⟨o', rfl, hd'⟩
  have hview' : (s.flatten_view)[i]? = some ⟨Node.dir p sz cs, d⟩ := hview
  obtain ⟨o, hoccI, hlen_d⟩ := hocc
  obtain ⟨s1, ht1, hexp1, hroot1, hbuf1, hst1, hvh1, hth1, hcur1⟩ :=
    toggle_by_index_dir s i p sz cs d hview'
  cases hfi : s.expanded_nodes.findIdx? (fun x => x == Node.dir p sz cs) with
  | none =>
    -- the directory was collapsed: the first toggle expands it
    simp only [hfi] at hexp1
    have hnotmem : Node.dir p sz cs ∉ s.expanded_nodes :=
      (findIdx?_beq_none _ _).mp hfi
    have hcont : s.expanded_nodes.contains (Node.dir p sz cs) = false := by
      cases hb : s.expanded_nodes.contains (Node.dir p sz cs) with
      | false => rfl
      | true => exact absurd ((contains_iff _ _).mp hb) hnotmem
    have hcont' : (s.expanded_nodes ++ [Node.dir p sz cs]).contains
        (Node.dir p sz cs) = true := by
      rw [contains_iff]
      simp
    have hagree : ∀ x : Node, x ≠ Node.dir p sz cs →
        s.expanded_nodes.contains x =
          (s.expanded_nodes ++ [Node.dir p sz cs]).contains x := by
      intro x hx
      rw [Bool.eq_iff_iff, contains_iff, contains_iff]
      simp [hx]
    obtain ⟨A, B, he1, hlenA, he2⟩ :=
      flattenOcc_decompIdx s.expanded_nodes
        (s.expanded_nodes ++ [Node.dir p sz cs]) (Node.dir p sz cs) hagree
        s.root [] i o hndT hoccI
    have hflat1 : s1.flatten_view =
        collect_recursive (s.expanded_nodes ++ [Node.dir p sz cs])
          s.root 0 := by
      rw [UiState.flatten_view, hexp1, hroot1]
    have hview1 : (s1.flatten_view)[i]? =
        some ⟨Node.dir p sz cs, o.length⟩ := by
      rw [hflat1, ← flattenOcc_erase_nil, List.getElem?_map, he2,
        ← hlenA, getElem?_triple A _ B (flattenOcc_length_pos _ _ _),
        flattenOcc_dir_pos _ _ _ _ _ hcont']
      rw [List.getElem?_cons_zero]
      rfl
    obtain ⟨s2, ht2, hexp2, hroot2, hbuf2, hst2, hvh2, hth2, hcur2⟩ :=
      toggle_by_index_dir s1 i p sz cs o.length hview1
    simp only [hexp1, findIdx?_append_singleton_self _ _ hnotmem,
      eraseIdx_append_singleton] at hexp2
    refine ⟨s1, s2, ht1, ht2, ?_, ?_, ?_⟩
    · rw [hexp2]
    · rw [UiState.flatten_view, UiState.flatten_view, hexp2, hroot2, hroot1]
    · intro hcs hveq
      have hlen := congrArg List.length hveq
      rw [hflat1, UiState.flatten_view, ← flattenOcc_erase_nil,
        ← flattenOcc_erase_nil] at hlen
      simp only [List.length_map] at hlen
      rw [he1, he2] at hlen
      simp only [List.length_append] at hlen
      rw [flattenOcc_dir_pos _ _ _ _ _ hcont'] at hlen
      rw [flattenOcc_dir_neg _ _ _ _ _ (by rw [hcont]; simp)] at hlen
      cases cs with
      | nil => exact hcs rfl
      | cons c cs' =>
        have hpos := flattenOccChildren_length_pos
          (s.expanded_nodes ++ [Node.dir p sz (c :: cs')]) o 0 c cs'
        simp only [List.length_cons, List.length_nil, List.length_append,
          List.length_singleton] at hlen hpos
        omega
  | some idx =>
    -- the directory was expanded: the first toggle collapses it
    simp only [hfi] at hexp1
    have hmem : Node.dir p sz cs ∈ s.expanded_nodes :=
      findIdx?_beq_some_mem _ _ idx hfi
    have hcont : s.expanded_nodes.contains (Node.dir p sz cs) = true :=
      (contains_iff _ _).mpr hmem
    have herase : s.expanded_nodes.eraseIdx idx =
        s.expanded_nodes.erase (Node.dir p sz cs) :=
      eraseIdx_of_findIdx? _ _ idx hfi
    rw [herase] at hexp1
    have hnotmem' : Node.dir p sz cs ∉
        s.expanded_nodes.erase (Node.dir p sz cs) := by
      rw [hndE.mem_erase_iff]
      simp
    have hcont' : (s.expanded_nodes.erase (Node.dir p sz cs)).contains
        (Node.dir p sz cs) = false := by
      cases hb : (s.expanded_nodes.erase (Node.dir p sz cs)).contains
          (Node.dir p sz cs) with
      | false => rfl
      | true => exact absurd ((contains_iff _ _).mp hb) hnotmem'
    have hagree : ∀ x : Node, x ≠ Node.dir p sz cs →
        s.expanded_nodes.contains x =
          (s.expanded_nodes.erase (Node.dir p sz cs)).contains x := by
      intro x hx
      rw [Bool.eq_iff_iff, contains_iff, contains_iff]
      rw [hndE.mem_erase_iff]
      simp [hx]
    obtain ⟨A, B, he1, hlenA, he2⟩ :=
      flattenOcc_decompIdx s.expanded_nodes
        (s.expanded_nodes.erase (Node.dir p sz cs)) (Node.dir p sz cs) hagree
        s.root [] i o hndT hoccI
    have hfi' : (s.expanded_nodes.erase (Node.dir p sz cs)).findIdx?
        (fun x => x == Node.dir p sz cs) = none :=
      (findIdx?_beq_none _ _).mpr hnotmem'
    have hflat1 : s1.flatten_view =
        collect_recursive (s.expanded_nodes.erase (Node.dir p sz cs))
          s.root 0 := by
      rw [UiState.flatten_view, hexp1, hroot1]
    have hview1 : (s1.flatten_view)[i]? =
        some ⟨Node.dir p sz cs, o.length⟩ := by
      rw [hflat1, ← flattenOcc_erase_nil, List.getElem?_map, he2,
        ← hlenA, getElem?_triple A _ B (flattenOcc_length_pos _ _ _),
        flattenOcc_dir_neg _ _ _ _ _ (by rw [hcont']; simp)]
      rw [List.getElem?_cons_zero]
      rfl
    obtain ⟨s2, ht2, hexp2, hroot2, hbuf2, hst2, hvh2, hth2, hcur2⟩ :=
      toggle_by_index_dir s1 i p sz cs o.length hview1
    simp only [hexp1, hfi'] at hexp2
    have hmemiff : ∀ x : Node,
        x ∈ s.expanded_nodes.erase (Node.dir p sz cs) ++ [Node.dir p sz cs]
          ↔ x ∈ s.expanded_nodes := by
      intro x
      rw [List.mem_append, hndE.mem_erase_iff]
      constructor
      · rintro (⟨_, hx⟩ | hx)
        · exact hx
        · simp only [List.mem_singleton] at hx
          rw [hx]
          exact hmem
      · intro hx
        by_cases hxn : x = Node.dir p sz cs
        · right; simp [hxn]
        · left; exact ⟨hxn, hx⟩
    refine ⟨s1, s2, ht1, ht2, ?_, ?_, ?_⟩
    · rw [hexp2]
      refine List.Perm.trans (List.perm_append_singleton _ _) ?_
      exact (perm_cons_erase_beq hmem).symm
    · rw [UiState.flatten_view, UiState.flatten_view, hexp2, hroot2, hroot1]
      rw [← flattenOcc_erase_nil, ← flattenOcc_erase_nil]
      rw [flattenOcc_congr _ s.expanded_nodes s.root []
        (fun x _ => contains_congr hmemiff x)]
    · intro hcs hveq
      have hlen := congrArg List.length hveq
      rw [hflat1, UiState.flatten_view, ← flattenOcc_erase_nil,
        ← flattenOcc_erase_nil] at hlen
      simp only [List.length_map] at hlen
      rw [he1, he2] at hlen
      simp only [List.length_append] at hlen
      rw [flattenOcc_dir_pos _ _ _ _ _ hcont] at hlen
      rw [flattenOcc_dir_neg _ _ _ _ _ (by rw [hcont']; simp)] at hlen
      cases cs with
      | nil => exact hcs rfl
      | cons c cs' =>
        have hpos := flattenOccChildren_length_pos s.expanded_nodes o 0 c cs'
        simp only [List.length_cons, List.length_nil, List.length_append,
          List.length_singleton] at hlen hpos
        omega

/-! ## Recoverable toggle failures (claim C6) -/

/-- The two failure conditions of `toggle_by_index`: the view-index is out
of range, or the resolved node is a file. -/
def toggle_fails (s : UiState) (index : Nat) : Bool :=
  match (s.flatten_view)[index]? with
  | none => true
  | some item => !item.node.isDir

theorem toggle_by_index_err (s : UiState) (index : Nat)
    (h : toggle_fails s index = true) :
    ∃ msg, s.toggle_by_index index = .error msg := by
  rw [toggle_fails] at h
  rw [UiState.toggle_by_index]
  cases hv : (s.flatten_view)[index]? with
  | none => exact ⟨_, rfl⟩
  | some item =>
    rw [hv] at h
    obtain ⟨nd, dep⟩ := item
    cases nd with
    | file p sz => exact ⟨_, rfl⟩
    | dir p sz cs => simp [Node.isDir] at h

theorem update_toggle_failure_core (s : UiState) (a : UiState.Action)
    (h : (a = .ToggleAtCursor ∧ toggle_fails s s.cursor = true) ∨
      (∃ i, a = .Toggle i ∧ toggle_fails s i = true) ∨
      (a = .Enter ∧ ((s.input_buffer = "" ∧ toggle_fails s s.cursor = true) ∨
        (s.input_buffer ≠ "" ∧
          ∃ i, parse_usize s.input_buffer = some i ∧
            toggle_fails s i = true)))) :
    (s.update a).2 = true ∧
    (s.update a).1.expanded_nodes = s.expanded_nodes ∧
    (s.update a).1.cursor = s.cursor ∧
    (∃ m, (s.update a).1.status = some ⟨m, true⟩) ∧
    (s.update a).1.input_buffer = "" := by
  rcases h with ⟨rfl, hf⟩ | ⟨i, rfl, hf⟩ | ⟨rfl, hcase⟩
  · -- ToggleAtCursor
    obtain ⟨msg, herr⟩ :=
      toggle_by_index_err { s with input_buffer := "" } s.cursor hf
    rw [UiState.update, UiState.toggle_at_cursor]
    rw [show ({ s with input_buffer := "" } : UiState).cursor = s.cursor
      from rfl]
    rw [herr]
    exact ⟨rfl, rfl, rfl, ⟨msg, rfl⟩, rfl⟩
  · -- Toggle i
    obtain ⟨msg, herr⟩ :=
      toggle_by_index_err { s with input_buffer := "" } i hf
    rw [UiState.update, herr]
    exact ⟨rfl, rfl, rfl, ⟨msg, rfl⟩, rfl⟩
  · -- Enter
    rcases hcase with ⟨hbuf, hf⟩ | ⟨hbuf, i, hparse, hf⟩
    · obtain ⟨msg, herr⟩ := toggle_by_index_err s s.cursor hf
      rw [UiState.update]
      rw [if_pos (by rw [hbuf]; rfl)]
      rw [UiState.toggle_at_cursor, herr]
      exact ⟨rfl, rfl, rfl, ⟨msg, rfl⟩, rfl⟩
    · obtain ⟨msg, herr⟩ := toggle_by_index_err s i hf
      rw [UiState.update]
      rw [if_neg (by
        intro hc
        exact hbuf ((String.isEmpty_iff _).mp hc))]
      simp only [hparse, herr]
      refine ⟨trivial, rfl, rfl, ⟨msg, rfl⟩, trivial⟩

/-! ## Cursor safety (claims C8 and C10) -/

theorem collect_head (e : List Node) (n : Node) (d : Nat) :
    ∃ rest, collect_recursive e n d = ⟨n, d⟩ :: rest := by
  cases n <;> (rw [collect_recursive]; exact ⟨_, rfl⟩)

theorem collect_length_pos (e : List Node) (n : Node) (d : Nat) :
    0 < (collect_recursive e n d).length := by
  obtain ⟨rest, hr⟩ := collect_head e n d
  rw [hr]
  simp

theorem flatten_view_length_pos (s : UiState) : 0 < s.flatten_view.length :=
  collect_length_pos s.expanded_nodes s.root 0

theorem clamp_lt (c L : Nat) (h : 0 < L) : (if c ≥ L then L - 1 else c) < L := by
  split <;> omega

theorem toggle_by_index_ok_inv (s : UiState) (i : Nat) (s' : UiState)
    (h : s.toggle_by_index i = .ok s') :
    s'.cursor < s'.flatten_view.length ∧ s'.root = s.root ∧
      s'.input_buffer = s.input_buffer ∧ s'.status = s.status := by
  rw [UiState.toggle_by_index] at h
  cases hv : (s.flatten_view)[i]? with
  | none => rw [hv] at h; cases h
  | some item =>
    rw [hv] at h
    obtain ⟨nd, dep⟩ := item
    cases nd with
    | file p sz => cases h
    | dir p sz cs =>
      rw [Except.ok.injEq] at h
      subst h
      refine ⟨?_, rfl, rfl, rfl⟩
      exact clamp_lt s.cursor _ (collect_length_pos _ s.root 0)

theorem update_preserves_cursor_inv (s : UiState) (a : UiState.Action)
    (hInv : s.cursor < s.flatten_view.length) :
    (s.update a).1.cursor < (s.update a).1.flatten_view.length := by
  cases a with
  | MoveUp =>
    rw [UiState.update, UiState.move_cursor,
      if_neg (by have := flatten_view_length_pos s; omega),
      if_pos (by norm_num : (-1 : Int) < 0)]
    exact lt_of_le_of_lt (Nat.sub_le _ _) hInv
  | MoveDown =>
    rw [UiState.update, UiState.move_cursor,
      if_neg (by have := flatten_view_length_pos s; omega),
      if_neg (by norm_num : ¬(1 : Int) < 0)]
    have hp := flatten_view_length_pos s
    have hgoal : min (s.cursor + 1) (s.flatten_view.length - 1) <
        s.flatten_view.length := by omega
    exact hgoal
  | ToggleAtCursor =>
    rw [UiState.update]
    cases ht : ({ s with input_buffer := "" } : UiState).toggle_at_cursor with
    | ok s' =>
      simp only [ht]
      rw [UiState.toggle_at_cursor] at ht
      exact (toggle_by_index_ok_inv _ _ _ ht).1
    | error e =>
      simp only [ht]
      exact hInv
  | Toggle i =>
    rw [UiState.update]
    cases ht : ({ s with input_buffer := "" } : UiState).toggle_by_index i with
    | ok s' =>
      simp only [ht]
      have hp := flatten_view_length_pos s'
      have hgoal : min i (s'.flatten_view.length - 1) <
          s'.flatten_view.length := by omega
      exact hgoal
    | error e =>
      simp only [ht]
      exact hInv
  | Enter =>
    rw [UiState.update]
    by_cases hb : s.input_buffer.isEmpty = true
    · rw [if_pos hb]
      cases ht : s.toggle_at_cursor with
      | ok s' =>
        simp only [ht]
        rw [UiState.toggle_at_cursor] at ht
        exact (toggle_by_index_ok_inv _ _ _ ht).1
      | error e =>
        simp only [ht]
        exact hInv
    · rw [if_neg hb]
      cases hp : parse_usize s.input_buffer with
      | none =>
        simp only [hp]
        exact hInv
      | some i =>
        simp only [hp]
        cases ht : s.toggle_by_index i with
        | ok s' =>
          simp only [ht]
          have hpos := flatten_view_length_pos s'
          have hgoal : min i (s'.flatten_view.length - 1) <
              s'.flatten_view.length := by omega
          exact hgoal
        | error e =>
          simp only [ht]
          exact hInv
  | InputDigit ch =>
    rw [UiState.update]
    by_cases hd : ch.isDigit = true
    · rw [if_pos hd]
      exact hInv
    · rw [if_neg hd]
      exact hInv
  | InputBackspace =>
    rw [UiState.update]
    exact hInv
  | Quit =>
    rw [UiState.update]
    exact hInv

/-- The states reachable in a session: the initial state built by
`UiState::new` and everything `update` produces from a reachable state. -/
inductive Reachable : UiState → Prop where
  | init (root : Node) (theme : Theme) : Reachable (UiState.new root theme)
  | step (s : UiState) (a : UiState.Action) :
      Reachable s → Reachable (s.update a).1

theorem reachable_cursor_inv (s : UiState) (h : Reachable s) :
    s.cursor < s.flatten_view.length := by
  induction h with
  | init root theme => exact flatten_view_length_pos _
  | step s' a _ ih => exact update_preserves_cursor_inv s' a ih

/-! ## Value-based membership of `expanded_nodes` (claim C2) -/

theorem toggle_flips_value_membership (s : UiState) (i : Nat) (p : FsPath)
    (sz : Nat) (cs : List Node) (d : Nat)
    (hndE : s.expanded_nodes.Nodup)
    (hview : (s.flatten_view)[i]? = some ⟨Node.dir p sz cs, d⟩) :
    ∃ s', s.toggle_by_index i = .ok s' ∧
      ∀ m : Node, m = Node.dir p sz cs →
        s'.expanded_nodes.contains m = !(s.expanded_nodes.contains m) := by
  obtain ⟨s', ht, hexp, _, _, _, _, _⟩ :=
    toggle_by_index_dir s i p sz cs d hview
  refine ⟨s', ht, ?_⟩
  rintro m rfl
  cases hfi : s.expanded_nodes.findIdx? (fun x => x == Node.dir p sz cs) with
  | none =>
    simp only [hfi] at hexp
    have hnm : Node.dir p sz cs ∉ s.expanded_nodes :=
      (findIdx?_beq_none _ _).mp hfi
    have h1 : s.expanded_nodes.contains (Node.dir p sz cs) = false := by
      cases hb : s.expanded_nodes.contains (Node.dir p sz cs) with
      | false => rfl
      | true => exact absurd ((contains_iff _ _).mp hb) hnm
    have h2 : (s.expanded_nodes ++ [Node.dir p sz cs]).contains
        (Node.dir p sz cs) = true := by
      rw [contains_iff]
      simp
    rw [hexp, h1, h2]
    rfl
  | some idx =>
    simp only [hfi] at hexp
    rw [eraseIdx_of_findIdx? _ _ idx hfi] at hexp
    have hmem : Node.dir p sz cs ∈ s.expanded_nodes :=
      findIdx?_beq_some_mem _ _ idx hfi
    have h1 : s.expanded_nodes.contains (Node.dir p sz cs) = true :=
      (contains_iff _ _).mpr hmem
    have h2 : (s.expanded_nodes.erase (Node.dir p sz cs)).contains
        (Node.dir p sz cs) = false := by
      cases hb : (s.expanded_nodes.erase (Node.dir p sz cs)).contains
          (Node.dir p sz cs) with
      | false => rfl
      | true =>
        have := (contains_iff _ _).mp hb
        rw [hndE.mem_erase_iff] at this
        simp at this
    rw [hexp, h1, h2]
    rfl

/-! ## Concrete fixtures for witnesses and counterexamples -/

def fsC1 : FS := .dir [some ("child", .metaErr)]

def fsC3 : FS :=
  .dir [some ("a.txt", .file 10),
        some ("sub", .dir [some ("b.txt", .file 20)])]

def nC3 : Node :=
  .dir ["root"] 30
    [.dir ["root", "sub"] 20 [.file ["root", "sub", "b.txt"] 20],
     .file ["root", "a.txt"] 10]

def bFileC2 : Node := .file ["r", "a", "b"] 1
def vDupC2 : Node := .dir ["r", "a"] 1 [bFileC2]
def rootC2 : Node := .dir ["r"] 2 [vDupC2, vDupC2]
def stateC2 : UiState := UiState.new rootC2 Theme.default
def stateC2x : UiState :=
  { stateC2 with expanded_nodes := [rootC2, vDupC2], cursor := 0 }

def emptyDirC7 : Node := .dir ["r", "a"] 0 []
def rootC7 : Node := .dir ["r"] 0 [emptyDirC7]
def stateC7 : UiState := UiState.new rootC7 Theme.default
def stateC7x : UiState :=
  { stateC7 with expanded_nodes := [rootC7, emptyDirC7], cursor := 0 }

def leafC7 : Node := .file ["r", "a", "b"] 1
def dirC7 : Node := .dir ["r", "a"] 1 [leafC7]
def rootC7w : Node := .dir ["r"] 1 [dirC7]
def stateC7w : UiState := UiState.new rootC7w Theme.default

def rootC4 : Node := .dir ["r"] 1 [.file ["r", "x"] 1]

/-! ## Claim theorems -/

/-- C1: the claim says a non-root entry that cannot be read is skipped and
the parent scan succeeds, only a root failure being fatal.  The code does
not do this: `scan_with_progress` propagates a child's `fs::metadata` (or
`read_dir`) failure through `collect::<anyhow::Result<Vec<Node>>>()?`, so a
readable, well-formed root directory with one unreadable child makes the
whole scan return an error — only errored `DirEntry` iteration results are
skipped.  This contradicts the function's own doc comment ("跳过无法访问的
条目，继续扫描" — skip inaccessible entries, continue scanning); this
theorem evaluates the embedded code at the failing input. -/
theorem claim_C1_code_behavior :
    wfFS fsC1 = true ∧
    Node.scan ["root"] fsC1 = .error (.ioMeta ["root", "child"]) := by
  constructor
  · decide
  · rfl

/-- C3: in every tree returned by the scanner, a directory's size is the
sum of its direct children's sizes, recursively for every descendant
(`sizeOkB`), and a file node carries exactly the byte length the
filesystem reported at scan time. -/
theorem claim_C3_size_aggregation :
    (∀ (fs : FS) (path : FsPath) (n : Node),
      scan_with_progress path fs = .ok n → sizeOkB n = true) ∧
    (∀ (path : FsPath) (sz : Nat),
      scan_with_progress path (.file sz) = .ok (.file path sz)) :=
  ⟨scan_sizeOk, fun _ _ => rfl⟩

/-- Witness for C3 at a concrete filesystem. -/
theorem claim_C3_size_aggregation_witness :
    scan_with_progress ["root"] fsC3 = .ok nC3 ∧ sizeOkB nC3 = true := by
  have h : scan_with_progress ["root"] fsC3 = .ok nC3 := by
    simp [fsC3, nC3, scan_with_progress, scan_entries, sort_children,
      sizeSum, node_le, nodeCmp, List.mergeSort, Node.size]
  exact ⟨h, claim_C3_size_aggregation.1 fsC3 ["root"] nC3 h⟩

/-- C5: on a well-formed filesystem (pairwise distinct entry names in every
directory, true of any real filesystem), every directory of a scanned tree
lists its children in the canonical default order: every directory child
precedes every file child, and same-kind siblings are strictly ascending by
full path — recursively at every level (`orderedOkB`). -/
theorem claim_C5_canonical_order :
    ∀ fs, wfFS fs = true → ∀ (path : FsPath) (n : Node),
      scan_with_progress path fs = .ok n → orderedOkB n = true :=
  scan_orderedOk

/-- Witness for C5 at a concrete filesystem. -/
theorem claim_C5_canonical_order_witness :
    wfFS fsC3 = true ∧ scan_with_progress ["root"] fsC3 = .ok nC3 ∧
      orderedOkB nC3 = true := by
  have h : scan_with_progress ["root"] fsC3 = .ok nC3 := by
    simp [fsC3, nC3, scan_with_progress, scan_entries, sort_children,
      sizeSum, node_le, nodeCmp, List.mergeSort, Node.size]
  exact ⟨by decide, h, claim_C5_canonical_order fsC3 (by decide) ["root"] nC3 h⟩

/-- C4: projection correctness of `flatten_view`, stated over occurrences
(tree positions).  (1) the code's `flatten_view` is the occurrence-
instrumented projection with each occurrence erased to its length — so the
depth of an emitted row is the length of its occurrence; (2) an occurrence
is in the projection iff it denotes a real subtree all of whose proper
ancestors are members of `expanded_nodes`; (3) if some proper ancestor is
not a member (`ancestors_expanded` false), the entire subtree is absent,
regardless of the descendants' own membership; (4) an emitted expanded
directory is immediately followed by the block of its children's subtrees
(whose occurrences extend the parent's by one index, hence sit at depth
parent+1 by (1)). -/
theorem claim_C4_projection :
    (∀ s : UiState, s.flatten_view =
        (flattenOcc s.expanded_nodes [] s.root).map eraseOccItem) ∧
    (∀ (e : List Node) (root n : Node) (o : List Nat),
      ((o, n) ∈ flattenOcc e [] root ↔
        subtreeAt root o = some n ∧ ancestors_expanded e root o = true)) ∧
    (∀ (e : List Node) (root n : Node) (o : List Nat),
      ancestors_expanded e root o = false → (o, n) ∉ flattenOcc e [] root) ∧
    (∀ (e : List Node) (root : Node) (o : List Nat) (p : FsPath) (sz : Nat)
        (cs : List Node),
      (o, Node.dir p sz cs) ∈ flattenOcc e [] root →
      e.contains (Node.dir p sz cs) = true →
      ∃ A B, flattenOcc e [] root =
        A ++ (o, Node.dir p sz cs) :: flattenOccChildren e o 0 cs ++ B) := by
  refine ⟨flatten_view_eq, ?_, ?_, ?_⟩
  · intro e root n o
    rw [flattenOcc_mem e root [] o n]
    constructor
    · rintro ⟨rel, hrel, hsub, hanc⟩
      rw [List.nil_append] at hrel
      subst hrel
      exact ⟨hsub, hanc⟩
    · rintro ⟨hsub, hanc⟩
      exact ⟨o, by simp, hsub, hanc⟩
  · intro e root n o hanc hmem
    obtain ⟨rel, hrel, hsub, hanc'⟩ := (flattenOcc_mem e root [] o n).mp hmem
    rw [List.nil_append] at hrel
    subst hrel
    exact Bool.noConfusion (hanc'.symm.trans hanc)
  · intro e root o p sz cs hmem hc
    obtain ⟨A, B, hd⟩ := flattenOcc_decomp e root [] o (Node.dir p sz cs) hmem
    refine ⟨A, B, ?_⟩
    rw [hd, flattenOcc_dir_pos _ _ _ _ _ hc]

/-- Witness for C4: on a concrete tree, a collapsed root hides its child,
and an expanded root is followed by its children block. -/
theorem claim_C4_projection_witness :
    (([0], Node.file ["r", "x"] 1) ∉ flattenOcc [] [] rootC4) ∧
    (∃ A B, flattenOcc [rootC4] [] rootC4 =
      A ++ ([], rootC4) ::
        flattenOccChildren [rootC4] [] 0 [Node.file ["r", "x"] 1] ++ B) := by
  refine ⟨claim_C4_projection.2.2.1 [] rootC4 (Node.file ["r", "x"] 1) [0]
    (by decide), ?_⟩
  exact claim_C4_projection.2.2.2 [rootC4] rootC4 [] ["r"] 1
    [Node.file ["r", "x"] 1] (by decide) (by decide)

/-- C6: when a toggle fails — view-index out of range or the resolved node
is a file — via `ToggleAtCursor`, `Toggle(index)`, or `Enter` (empty buffer
toggling at the cursor, or a parsed buffer index), `update` reports the
session continues, leaves `expanded_nodes` and `cursor` exactly as they
were, sets an error status, and the input buffer ends cleared. -/
theorem claim_C6_toggle_failure (s : UiState) (a : UiState.Action)
    (h : (a = .ToggleAtCursor ∧ toggle_fails s s.cursor = true) ∨
      (∃ i, a = .Toggle i ∧ toggle_fails s i = true) ∨
      (a = .Enter ∧ ((s.input_buffer = "" ∧ toggle_fails s s.cursor = true) ∨
        (s.input_buffer ≠ "" ∧
          ∃ i, parse_usize s.input_buffer = some i ∧
            toggle_fails s i = true)))) :
    (s.update a).2 = true ∧
    (s.update a).1.expanded_nodes = s.expanded_nodes ∧
    (s.update a).1.cursor = s.cursor ∧
    (∃ m, (s.update a).1.status = some ⟨m, true⟩) ∧
    (s.update a).1.input_buffer = "" :=
  update_toggle_failure_core s a h

/-- Witness for C6: `Toggle 5` on a two-row view. -/
theorem claim_C6_toggle_failure_witness :
    (stateC7w.update (.Toggle 5)).2 = true ∧
    (stateC7w.update (.Toggle 5)).1.expanded_nodes =
      stateC7w.expanded_nodes ∧
    (stateC7w.update (.Toggle 5)).1.cursor = stateC7w.cursor ∧
    (∃ m, (stateC7w.update (.Toggle 5)).1.status = some ⟨m, true⟩) ∧
    (stateC7w.update (.Toggle 5)).1.input_buffer = "" :=
  claim_C6_toggle_failure stateC7w (.Toggle 5)
    (Or.inr (Or.inl ⟨5, rfl, by decide⟩))

/-- C7 (amended): toggling the same view-index twice in a row restores the
members of `expanded_nodes` (as a permutation; in the expand-then-collapse
direction even exactly), and restores the view exactly; the two views
observed between the toggles differ **provided the toggled directory has at
least one child** (for a childless directory the view is unchanged — see
the counterexample).  Stated for trees without duplicate node values (true
of scanned trees, whose paths are distinct) and duplicate-free
`expanded_nodes` (an invariant of reachable states). -/
theorem claim_C7_toggle_twice (s : UiState) (i : Nat)
    (p : FsPath) (sz : Nat) (cs : List Node) (d : Nat)
    (hndE : s.expanded_nodes.Nodup)
    (hndT : (treeVals s.root).Nodup)
    (hview : (s.flatten_view)[i]? = some ⟨Node.dir p sz cs, d⟩) :
    ∃ s1 s2, s.toggle_by_index i = .ok s1 ∧ s1.toggle_by_index i = .ok s2 ∧
      s2.expanded_nodes.Perm s.expanded_nodes ∧
      s2.flatten_view = s.flatten_view ∧
      (cs ≠ [] → s1.flatten_view ≠ s.flatten_view) :=
  toggle_by_index_twice s i p sz cs d hndE hndT hview

/-- Counterexample to C7 as stated: toggling the empty directory at row 1
succeeds and flips `expanded_nodes`, yet the view after the toggle equals
the view before it — the "two flatten_view results observed between the
toggles" do **not** differ. -/
theorem claim_C7_counterexample :
    stateC7.toggle_by_index 1 = .ok stateC7x ∧
    stateC7x.flatten_view = stateC7.flatten_view ∧
    stateC7x.expanded_nodes ≠ stateC7.expanded_nodes := by
  refine ⟨rfl, rfl, by decide⟩

/-- Witness for C7 (amended) at a concrete one-child directory. -/
theorem claim_C7_toggle_twice_witness :
    ∃ s1 s2, stateC7w.toggle_by_index 1 = .ok s1 ∧
      s1.toggle_by_index 1 = .ok s2 ∧
      s2.expanded_nodes.Perm stateC7w.expanded_nodes ∧
      s2.flatten_view = stateC7w.flatten_view ∧
      ([leafC7] ≠ ([] : List Node) →
        s1.flatten_view ≠ stateC7w.flatten_view) :=
  claim_C7_toggle_twice stateC7w 1 ["r", "a"] 1 [leafC7] 1
    (by decide) (by decide) (by decide)

/-- C2 (amended): membership of a node in `expanded_nodes` is decided by
**value** equality (the derived `PartialEq` behind `Vec::contains` and
`position(|&x| x == target)` on `Vec<&Node>` compares the pointed-to
values), not by reference identity: a successful toggle of row `i` flips
the membership status of *every* node value-equal to the resolved
directory, and `flatten_view` expands every directory value-equal to some
member.  Distinct positions holding equal values are therefore conflated;
in trees produced by `scan` all paths are distinct, so value equality
coincides with identity there. -/
theorem claim_C2_value_membership (s : UiState) (i : Nat) (p : FsPath)
    (sz : Nat) (cs : List Node) (d : Nat)
    (hndE : s.expanded_nodes.Nodup)
    (hview : (s.flatten_view)[i]? = some ⟨Node.dir p sz cs, d⟩) :
    ∃ s', s.toggle_by_index i = .ok s' ∧
      ∀ m : Node, m = Node.dir p sz cs →
        s'.expanded_nodes.contains m = !(s.expanded_nodes.contains m) :=
  toggle_flips_value_membership s i p sz cs d hndE hview

/-- Counterexample to C2 as stated: `rootC2` has two *distinct* child
positions (rows 1 and 3 of the expanded view) holding value-equal
directory nodes.  Toggling row 1 alone changes the expansion status of the
other: afterwards the projection shows the child of **both** occurrences
(rows 2 and 4), so membership is not identity-based and a directory's
children are expanded although that exact node was never toggled. -/
theorem claim_C2_counterexample :
    stateC2.toggle_by_index 1 = .ok stateC2x ∧
    stateC2x.flatten_view =
      [⟨rootC2, 0⟩, ⟨vDupC2, 1⟩, ⟨bFileC2, 2⟩, ⟨vDupC2, 1⟩, ⟨bFileC2, 2⟩] :=
  ⟨rfl, rfl⟩

/-- Witness for C2 (amended) at a concrete state. -/
theorem claim_C2_value_membership_witness :
    ∃ s', stateC7w.toggle_by_index 1 = .ok s' ∧
      ∀ m : Node, m = Node.dir ["r", "a"] 1 [leafC7] →
        s'.expanded_nodes.contains m =
          !(stateC7w.expanded_nodes.contains m) :=
  claim_C2_value_membership stateC7w 1 ["r", "a"] 1 [leafC7] 1
    (by decide) (by decide)

/-- C8: after applying any action via `update` to any reachable state, the
cursor is strictly below the view length (the view is never empty, so the
empty-view disjunct never actually occurs); this covers collapses that
shorten the view and the cursor snap of `Toggle(index)`. -/
theorem claim_C8_cursor_safety :
    ∀ s : UiState, Reachable s → ∀ a : UiState.Action,
      (s.update a).1.cursor < ((s.update a).1.flatten_view).length ∨
        (((s.update a).1.flatten_view).length = 0 ∧
          (s.update a).1.cursor = 0) :=
  fun s h a =>
    Or.inl (update_preserves_cursor_inv s a (reachable_cursor_inv s h))

/-- Witness for C8 at the initial state of a session. -/
theorem claim_C8_cursor_safety_witness :
    ((UiState.new rootC7w Theme.default).update .MoveDown).1.cursor <
        (((UiState.new rootC7w Theme.default).update
          .MoveDown).1.flatten_view).length ∨
      ((((UiState.new rootC7w Theme.default).update
          .MoveDown).1.flatten_view).length = 0 ∧
        ((UiState.new rootC7w Theme.default).update .MoveDown).1.cursor = 0) :=
  claim_C8_cursor_safety _ (Reachable.init rootC7w Theme.default) .MoveDown

/-- C10 (implicit): `flatten_view` always begins with the root at depth 0 —
whether or not the root is a member of `expanded_nodes` — so the view
length is at least 1 and the empty-view branch of cursor clamping
(`move_cursor`'s `view_len == 0` arm and the `saturating_sub` in
`toggle_by_index`) is unreachable in any session. -/
theorem claim_C10_root_always_first :
    ∀ s : UiState, (∃ rest, s.flatten_view = ⟨s.root, 0⟩ :: rest) ∧
      0 < s.flatten_view.length :=
  fun s => ⟨by rw [UiState.flatten_view]; exact collect_head _ _ _,
    flatten_view_length_pos s⟩
